import Mathlib

/-!
# Verification of the comet task/streaming/agentic core (`app.py`)

This file gives a shallow embedding in Lean 4 of the parts of `app.py`
relevant to the frozen claims:

* the streaming reassembler inside `stream_openrouter` (sentinel-delimited
  chart-config extraction from a delta stream);
* the tool dispatcher `get_tool_response_single` and the builtin tool
  `calculate_math`;
* the agentic control loop `run_agentic_loop`;
* the background worker `stream_openrouter_background` and the HTTP task
  endpoints `get_task_status`, `stream_task_results`, `cancel_task`.

Python strings are modelled as `List Char` where per-character reasoning is
needed (the reassembler) and as `String` otherwise.  External effects
(the completion provider, `json.loads`, `eval`, tool side effects) are
modelled as explicit function parameters; raised exceptions are modelled
with `Except`/`Option`.  Wall-clock timestamps are abstracted to a `Bool`
recording whether the corresponding field has been set.
-/

namespace Comet

/-! ## Substring machinery

`findSub pat hay` is the index of the first occurrence of `pat` as a
contiguous substring of `hay`, mirroring Python's `str.find` / the `in`
operator / `str.split(pat, 1)` used by the reassembler. -/

def findSub (pat : List Char) : List Char → Option Nat
  | [] => if pat.isPrefixOf ([] : List Char) then some 0 else none
  | c :: t =>
    if pat.isPrefixOf (c :: t) then some 0 else (findSub pat t).map (· + 1)

/-- Python's `pat in hay` substring test. -/
def containsSub (pat hay : List Char) : Bool :=
  (findSub pat hay).isSome

/-- Python's `hay.split(pat, 1)`: the text before the first occurrence of
`pat` and the text after it.  Only used when `pat` occurs in `hay`;
otherwise returns `(hay, [])`. -/
def splitFirst (pat hay : List Char) : List Char × List Char :=
  match findSub pat hay with
  | some i => (hay.take i, hay.drop (i + pat.length))
  | none => (hay, [])

/-- `pat` occurs in `hay` starting at index `i`. -/
def occursAt (pat hay : List Char) (i : Nat) : Bool :=
  pat.isPrefixOf (hay.drop i)

/-! ## Streaming reassembler (`stream_openrouter`, app.py lines 876-985)

The content-processing part of `stream_openrouter`: each provider delta is
appended to a rolling `buffer`; a `[[CHARTJS_CONFIG_START]]` /
`[[CHARTJS_CONFIG_END]]` sentinel pair delimits an embedded JSON block.
JSON parsing (`json.loads`) is abstracted as a parameter
`parse : List Char → Option J`. -/

def startMarker : List Char := "[[CHARTJS_CONFIG_START]]".data

def endMarker : List Char := "[[CHARTJS_CONFIG_END]]".data

/-- Client-facing events produced by the reassembler that the claims are
about: `chunk` (text chunk) and `chart` (`chart_config` structured
payload). -/
inductive REv (J : Type) where
  | chunk (s : List Char)
  | chart (v : J)
  deriving DecidableEq, Repr

/-- Reassembler state carried across deltas: the rolling text buffer, the
in-block flag and the accumulated chart-config span
(`buffer`, `in_chart_config_block`, `chart_config_str` in the source). -/
structure RState where
  buffer : List Char
  inBlock : Bool
  chartStr : List Char
  deriving DecidableEq, Repr

def initRState : RState := ⟨[], false, []⟩

/-- The plain-text flush condition of app.py lines 934-935:
`buffer` is nonempty and contains a newline or exceeds 80 characters. -/
def flushCond (b : List Char) : Bool :=
  b ≠ [] && (b.contains '\n' || decide (b.length > 80))

/-- One iteration of the `for chunk in stream` loop of `stream_openrouter`
for a delta carrying text content (app.py lines 901-937), returning the
next state and the events yielded during the iteration. -/
def processDelta {J : Type} (parse : List Char → Option J) (st : RState)
    (delta : List Char) : RState × List (REv J) :=
  let buf0 := st.buffer ++ delta
  -- start-sentinel detection (lines 908-913)
  let p1 : List Char × Bool × List (REv J) :=
    if !st.inBlock && containsSub startMarker buf0 then
      let pr := splitFirst startMarker buf0
      (pr.2, true, if pr.1 ≠ [] then [REv.chunk pr.1] else [])
    else (buf0, st.inBlock, [])
  let buf1 := p1.1
  let inB1 := p1.2.1
  let evs1 := p1.2.2
  -- in-block accumulation / end-sentinel handling (lines 915-932)
  let p2 : List Char × Bool × List Char × List (REv J) :=
    if inB1 then
      if containsSub endMarker buf1 then
        let pr := splitFirst endMarker buf1
        let cs := st.chartStr ++ pr.1
        let ev : REv J :=
          match parse cs with
          | some v => REv.chart v
          | none => REv.chunk (startMarker ++ cs ++ endMarker)
        (pr.2, false, [], [ev])
      else ([], true, st.chartStr ++ buf1, [])
    else (buf1, inB1, st.chartStr, [])
  let buf2 := p2.1
  let inB2 := p2.2.1
  let cs2 := p2.2.2.1
  let evs2 := p2.2.2.2
  -- plain-text flush on newline or size threshold (lines 934-937)
  let p3 : List Char × List (REv J) :=
    if !inB2 && flushCond buf2 then ([], [REv.chunk buf2])
    else (buf2, [])
  (⟨p3.1, inB2, cs2⟩, evs1 ++ evs2 ++ p3.2)

/-- Folds `processDelta` over a list of deltas. -/
def runDeltas {J : Type} (parse : List Char → Option J) (st : RState) :
    List (List Char) → RState × List (REv J)
  | [] => (st, [])
  | d :: ds =>
    let r1 := processDelta parse st d
    let r2 := runDeltas parse r1.1 ds
    (r2.1, r1.2 ++ r2.2)

/-- Post-loop flush of `stream_openrouter` (app.py lines 969-974): leftover
buffered text is emitted as a text chunk; an unterminated block is emitted
as plain text with its sentinel restored. -/
def finishStream {J : Type} (st : RState) : List (REv J) :=
  if st.buffer ≠ [] then
    if st.inBlock then [REv.chunk (startMarker ++ st.chartStr ++ st.buffer)]
    else [REv.chunk st.buffer]
  else []

/-- The whole content path of `stream_openrouter` on a delta stream:
the events yielded during the loop followed by the final flush
(the trailing `end_of_stream` event is not part of the claims about the
reassembler and is omitted here). -/
def reassemble {J : Type} (parse : List Char → Option J)
    (deltas : List (List Char)) : List (REv J) :=
  let r := runDeltas parse initRState deltas
  r.2 ++ finishStream r.1

/-- The text chunks of an event list, in order. -/
def chunksOf {J : Type} : List (REv J) → List (List Char)
  | [] => []
  | REv.chunk s :: es => s :: chunksOf es
  | REv.chart _ :: es => chunksOf es

/-- The structured payloads of an event list, in order. -/
def chartsOf {J : Type} : List (REv J) → List J
  | [] => []
  | REv.chunk _ :: es => chartsOf es
  | REv.chart v :: es => v :: chartsOf es

/-- A delta stream carrying the text `pre ++ startMarker ++ js ++ endMarker
++ post` split across delta boundaries so that each sentinel lies entirely
within a single delta (the two sentinels in one delta, or in two different
deltas). -/
def SentinelSplit (deltas : List (List Char)) (pre js post : List Char) :
    Prop :=
  (∃ preD a b midD c d postD,
      deltas = preD ++ [a ++ (startMarker ++ b)] ++ midD ++
        [c ++ (endMarker ++ d)] ++ postD ∧
      pre = preD.flatten ++ a ∧ js = b ++ midD.flatten ++ c ∧
      post = d ++ postD.flatten) ∨
  (∃ preD a d postD,
      deltas = preD ++ [a ++ (startMarker ++ (js ++ (endMarker ++ d)))] ++
        postD ∧
      pre = preD.flatten ++ a ∧ post = d ++ postD.flatten)

/-! ## Builtin tool `calculate_math` (app.py lines 1257-1268)

`calculate_math` gates its input with `re.match(r'^[0-9+\-*/().\s]+$', e)`
and only then calls `eval`.  `eval` is abstracted as a parameter
`evalFn : String → Except String Int` (an exception is `Except.error`).
The regex accepts exactly the nonempty strings all of whose characters lie
in the class: with `\n` itself in the class, the `$`-before-trailing-newline
subtlety of `re` does not change the accepted language.  Python's Unicode
`\s` also matches some non-ASCII whitespace; only the ASCII whitespace
characters are modelled. -/

def allowedMathChar (c : Char) : Bool :=
  c.isDigit || c = '+' || c = '-' || c = '*' || c = '/' || c = '(' ||
    c = ')' || c = '.' ||
    c = ' ' || c = '\t' || c = '\n' || c = '\x0b' || c = '\x0c' || c = '\r'

/-- The character set named by the claim: digits, the four arithmetic
operators and parentheses only (written from the claim's words, to be
compared against `allowedMathChar` from the source). -/
def claimMathChar (c : Char) : Bool :=
  c.isDigit || c = '+' || c = '-' || c = '*' || c = '/' || c = '(' || c = ')'

/-- Result envelope of `calculate_math`: `{"result": ..., "expression": ...}`
on success, `{"error": ...}` otherwise. -/
inductive CalcResult where
  | ok (result : Int) (expression : String)
  | err (message : String)
  deriving DecidableEq, Repr

def invalidExprMsg : String :=
  "Invalid mathematical expression. Only numbers and basic operators allowed."

def calculate_math (evalFn : String → Except String Int)
    (expression : String) : CalcResult :=
  if expression.data ≠ [] && expression.data.all allowedMathChar then
    match evalFn expression with
    | Except.ok v => CalcResult.ok v expression
    | Except.error e => CalcResult.err ("Math calculation failed: " ++ e)
  else CalcResult.err invalidExprMsg

/-! ## Tool dispatcher `get_tool_response_single` (app.py lines 1589-1611)

A tool call carries the tool name and the raw JSON argument string.
`json.loads` is abstracted as `argParse : String → Option Args` (`none`
models a raised `json.JSONDecodeError`); the tool callables of
`TOOL_MAPPING` are abstracted as
`toolImpl : String → Args → Except String V` (`Except.error` models any
exception the callable raises, including a `TypeError` from keyword
arguments that do not match its parameters). -/

structure ToolCallRec where
  id : String
  name : String
  arguments : String
  deriving DecidableEq, Repr

/-- The keys of `TOOL_MAPPING`. -/
def toolNames : List String :=
  ["get_current_time", "calculate_math", "search_web_tool", "create_note",
   "research_topic"]

/-- The serialized `tool_result` placed in the tool message's content:
either a dumped value or the `{"error": ...}` envelope the dispatcher
builds for unknown tools and raising callables. -/
inductive ToolContent (V : Type) where
  | value (v : V)
  | errEnvelope (message : String)
  deriving DecidableEq, Repr

/-- A conversation message (`role`/`content` dict in the source). -/
inductive Msg (V : Type) where
  | system (content : String)
  | user (content : String)
  | assistant (content : Option String) (toolCalls : Option (List ToolCallRec))
  | tool (toolCallId : String) (name : String) (content : ToolContent V)
  deriving DecidableEq, Repr

/-- Stand-in for the message of the `json.JSONDecodeError` raised by
`json.loads` on a malformed argument string. -/
def jsonDecodeErrorMsg : String := "JSONDecodeError"

/-- `get_tool_response_single(response, tool_call)`.  The returned
`Except.error` models an exception propagating out of the function: the
`json.loads(tool_call.function.arguments)` call on line 1592 sits outside
the `try` block, so its failure is not converted to an error envelope. -/
def get_tool_response_single {Args V : Type}
    (argParse : String → Option Args)
    (toolImpl : String → Args → Except String V)
    (tc : ToolCallRec) : Except String (Msg V) :=
  match argParse tc.arguments with
  | none => Except.error jsonDecodeErrorMsg
  | some args =>
    let toolResult : ToolContent V :=
      if tc.name ∈ toolNames then
        match toolImpl tc.name args with
        | Except.ok v => ToolContent.value v
        | Except.error e =>
          ToolContent.errEnvelope ("Tool execution failed: " ++ e)
      else ToolContent.errEnvelope ("Unknown tool: " ++ tc.name)
    Except.ok (Msg.tool tc.id tc.name toolResult)

/-! ## Task model (`TaskStatus`, `BackgroundTask`, app.py lines 33-71)

Timestamps are abstracted to `Bool` flags recording whether the field has
been set (`None` versus a `datetime`). -/

inductive TStatus where
  | queued
  | in_progress
  | completed
  | failed
  | cancelled
  deriving DecidableEq, Repr

/-- One parsed SSE payload appended to `task.chunks` by the background
worker: presence of the `chunk`, `end_of_stream` and `error` keys of the
JSON object. -/
structure BgEvent where
  chunkText : Option String
  isEnd : Bool
  errMsg : Option String
  deriving DecidableEq, Repr

/-- `task.result` as populated on completion (app.py lines 178-182). -/
structure BgResult where
  totalChunks : Nat
  contentLength : Nat
  summary : String
  deriving DecidableEq, Repr

/-- The mutable fields of `BackgroundTask` the claims are about. -/
structure Task where
  status : TStatus
  progress : Nat
  chunks : List BgEvent
  result : Option BgResult
  error : Option String
  startedAt : Bool
  completedAt : Bool
  cancelRequested : Bool
  deriving DecidableEq, Repr

/-- A freshly created task (`BackgroundTask.__init__`). -/
def newTask : Task :=
  { status := TStatus.queued, progress := 0, chunks := [], result := none,
    error := none, startedAt := false, completedAt := false,
    cancelRequested := false }

/-- A concrete completed task, used as a test fixture. -/
def demoCompleted : Task :=
  { status := TStatus.completed, progress := 100, chunks := [],
    result := none, error := none, startedAt := true, completedAt := true,
    cancelRequested := false }

/-- A concrete cancelled task (its `cancelRequested` flag set, as the
worker leaves it), used as a test fixture. -/
def demoCancelled : Task :=
  { status := TStatus.cancelled, progress := 40,
    chunks := [⟨some "x", false, none⟩], result := none, error := none,
    startedAt := true, completedAt := true, cancelRequested := true }

/-! ## Background worker `stream_openrouter_background` (app.py 118-207)

The worker consumes the items yielded by the `stream_openrouter` generator.
Each item is either a line that does not start with `"data: "`, a
`"data: "` line whose JSON fails to parse (both skipped), or a parsed
event.  The concurrently mutated `task.cancel_requested` flag is modelled
as an oracle `flag : Nat → Bool` giving the value observed at the
checkpoint before the `i`-th received item. -/

inductive BgItem where
  | notData
  | badJson
  | ev (e : BgEvent)
  deriving DecidableEq, Repr

/-- A stream item that triggers neither the completion nor the failure
branch of the worker loop. -/
def nonTerminalItem : BgItem → Prop
  | BgItem.ev e => e.isEnd = false ∧ e.errMsg = none
  | _ => True

/-- The parsed events among a list of generator items. -/
def evsOf : List BgItem → List BgEvent
  | [] => []
  | BgItem.ev e :: its => e :: evsOf its
  | _ :: its => evsOf its

/-- `total_content` accumulated from a list of events (only the `chunk`
field contributes, app.py lines 164-165). -/
def contentOf : List BgEvent → String
  | [] => ""
  | e :: es => (e.chunkText.getD "") ++ contentOf es

/-- The truncated summary (app.py line 181):
`total_content[:500] + "..." if len(total_content) > 500 else total_content`. -/
def summaryOf (s : String) : String :=
  if s.length > 500 then String.mk (s.data.take 500) ++ "..." else s

/-- The progress heuristic (app.py lines 168-171) as a function of the
chunk count after the increment. -/
def progressUpdate (k : Nat) : Nat :=
  if k < 50 then min (k * 2) 90 else min (90 + (k - 50) / 10) 99

/-- Loop state of the worker: the task plus the local variables
`chunk_count` and `total_content`. -/
structure BgWork where
  task : Task
  chunkCount : Nat
  totalContent : String
  deriving DecidableEq, Repr

/-- The `for chunk_data in generator` loop of
`stream_openrouter_background` (app.py lines 147-201), including the
completion path after stream exhaustion (lines 198-201, which sets
`status`/`completed_at`/`progress` but leaves `task.result` untouched).
`i` is the index of the next checkpoint for the cancellation oracle. -/
def bgRun (flag : Nat → Bool) : List BgItem → Nat → BgWork → Task
  | [], _, w =>
    { w.task with status := TStatus.completed, completedAt := true,
                  progress := 100 }
  | it :: rest, i, w =>
    if flag i then
      { w.task with status := TStatus.cancelled, completedAt := true }
    else
      match it with
      | BgItem.notData => bgRun flag rest (i + 1) w
      | BgItem.badJson => bgRun flag rest (i + 1) w
      | BgItem.ev e =>
        let chunks := w.task.chunks ++ [e]
        let cc := w.chunkCount + 1
        let tc := w.totalContent ++ (e.chunkText.getD "")
        let prog := progressUpdate cc
        if e.isEnd then
          { w.task with chunks := chunks, progress := 100,
                        status := TStatus.completed, completedAt := true,
                        result := some ⟨cc, tc.length, summaryOf tc⟩ }
        else
          match e.errMsg with
          | some m =>
            { w.task with chunks := chunks, progress := prog,
                          status := TStatus.failed, error := some m,
                          completedAt := true }
          | none =>
            bgRun flag rest (i + 1)
              ⟨{ w.task with chunks := chunks, progress := prog }, cc, tc⟩

/-- The whole worker on a fresh task: the `Queued → InProgress` transition
(app.py lines 129-131) followed by the stream loop. -/
def stream_openrouter_background (flag : Nat → Bool)
    (items : List BgItem) : Task :=
  bgRun flag items 0
    ⟨{ newTask with status := TStatus.in_progress, startedAt := true }, 0, ""⟩

/-! ## HTTP task endpoints (app.py lines 2148-2221) -/

/-- Response bodies of `DELETE /tasks/<id>` (`cancel_task`). -/
inductive CancelResp where
  | notFound
  | conflict (message : String)
  | accepted
  deriving DecidableEq, Repr

/-- `cancel_task` (app.py lines 2204-2221): conflict only for `completed`
and `failed`; otherwise sets `cancel_requested` and reports success. -/
def cancel_task (t : Option Task) : CancelResp × Option Task :=
  match t with
  | none => (CancelResp.notFound, none)
  | some task =>
    if task.status = TStatus.completed || task.status = TStatus.failed then
      (CancelResp.conflict "Task already completed", some task)
    else
      (CancelResp.accepted, some { task with cancelRequested := true })

/-- The JSON body returned by `GET /tasks/<id>`: the `to_dict` projection
plus the optional `chunks` and `result` keys. -/
structure StatusResp where
  status : TStatus
  progress : Nat
  chunksCount : Nat
  error : Option String
  startedAt : Bool
  completedAt : Bool
  chunksField : Option (List BgEvent)
  resultField : Option (Option BgResult)
  deriving DecidableEq, Repr

/-- `get_task_status` (app.py lines 2148-2163): `chunks` and `result` are
included only when `task.status in [TaskStatus.COMPLETED,
TaskStatus.FAILED]`. -/
def get_task_status (t : Option Task) : Option StatusResp :=
  match t with
  | none => none
  | some task =>
    let includeExtra :=
      task.status = TStatus.completed || task.status = TStatus.failed
    some
      { status := task.status, progress := task.progress,
        chunksCount := task.chunks.length, error := task.error,
        startedAt := task.startedAt, completedAt := task.completedAt,
        chunksField := if includeExtra then some task.chunks else none,
        resultField := if includeExtra then some task.result else none }

/-- Events yielded by the `generate()` SSE loop of `stream_task_results`. -/
inductive SEv where
  | data (e : BgEvent)
  | statusCancelled
  | statusUpd (status : TStatus) (progress : Nat)
  | eos (status : TStatus)
  deriving DecidableEq, Repr

/-- `stream_task_results` (app.py lines 2176-2200).  The task is read anew
on every iteration of the `while True` loop; concurrent mutation is
modelled by the snapshot oracle `taskAt : Nat → Task`.  `fuel` bounds the
number of loop iterations so the model is total; a run whose fuel is not
exhausted corresponds to a terminating stream. -/
def streamTaskResults (taskAt : Nat → Task) :
    Nat → Nat → Nat → List SEv
  | 0, _, _ => []
  | fuel + 1, i, lastIdx =>
    let t := taskAt i
    if t.cancelRequested then [SEv.statusCancelled]
    else
      (t.chunks.drop lastIdx).map SEv.data ++
        [SEv.statusUpd t.status t.progress] ++
        (if t.status = TStatus.completed || t.status = TStatus.failed ||
            t.status = TStatus.cancelled then
          [SEv.eos t.status]
        else
          streamTaskResults taskAt fuel (i + 1) t.chunks.length)

/-! ## String helpers for the agentic loop -/

/-- Python's `pat in s` on strings. -/
def strContains (s pat : String) : Bool :=
  containsSub pat.data s.data

/-- Python's `sep.join(xs)`. -/
def joinSep (sep : String) : List String → String
  | [] => ""
  | [x] => x
  | x :: y :: xs => x ++ sep ++ joinSep sep (y :: xs)

/-- Python's `xs[-n:]`. -/
def lastN (n : Nat) (xs : List String) : List String :=
  xs.drop (xs.length - n)

/-- `len(set(xs)) == 1`: `xs` is nonempty and all its elements are equal. -/
def allEqStr : List String → Bool
  | [] => false
  | x :: t => t.all (· == x)

/-- Duplicate elimination standing in for Python's `list(set(xs))` (whose
order is unspecified); first occurrences are kept in order. -/
def dedupFirst : List String → List String
  | [] => []
  | x :: t => x :: dedupFirst (t.filter (· ≠ x))
termination_by xs => xs.length
decreasing_by
  exact Nat.lt_succ_of_le (List.length_filter_le _ _)

/-- `s[:100] + "..." if len(s) > 100 else s`. -/
def preview100 (s : String) : String :=
  if s.length > 100 then String.mk (s.data.take 100) ++ "..." else s

/-- Fuel-indexed worker for `splitOnSub`. -/
def splitOnAux (pat : List Char) : Nat → List Char → List (List Char)
  | 0, hay => [hay]
  | fuel + 1, hay =>
    match findSub pat hay with
    | none => [hay]
    | some i => hay.take i :: splitOnAux pat fuel (hay.drop (i + pat.length))

/-- Python's `s.split(pat)` for a nonempty pattern. -/
def splitOnSub (pat s : String) : List String :=
  (splitOnAux pat.data (s.data.length + 1) s.data).map String.mk

/-! ## Agentic control loop `run_agentic_loop` (app.py lines 1648-2088)

The completion provider is abstracted as a function from the conversation
to `Except String ProvResp` (`Except.error` models a raised exception and
carries `str(e)`).  Prompt prose that only feeds the provider is carried
verbatim where short; the large system prompt and the float formatting of
the efficiency score are abstracted (they influence no claim). -/

/-- One provider response: `message.content` and `message.tool_calls`
(`none` models Python `None`, distinct from an empty list). -/
structure ProvResp where
  content : Option String
  toolCalls : Option (List ToolCallRec)
  deriving DecidableEq, Repr

/-- Events yielded by the `run_agentic_loop` generator. -/
inductive AEv where
  | reasoning (s : String)
  | chunk (s : String)
  | errorEv (s : String)
  | eos
  deriving DecidableEq, Repr

/-- One entry of `task_plan["steps_completed"]` (timestamp and parsed
argument fields omitted: no claim depends on them). -/
structure AStep where
  iter : Nat
  tool : String
  deriving DecidableEq, Repr

/-- Loop state: the conversation, the iteration counter,
`total_tools_used` and the `task_plan` fields. -/
structure ALoopSt (V : Type) where
  messages : List (Msg V)
  iteration : Nat
  totalTools : List String
  steps : List AStep
  currentStep : String
  adaptations : List String

/-- How the loop ended. -/
inductive AOutcome where
  | natural
  | exhausted
  | errored (e : String)
  | noApiKey
  deriving DecidableEq, Repr

/-- Internal outcome of the fuelled loop. -/
inductive ACore where
  | natural (content : Option String)
  | exhausted
  | errored (e : String)
  deriving DecidableEq, Repr

def maxIterations : Nat := 5

/-- a tool name counted as a research operation (`'search' in s.get('tool')
or 'research' in ...`). -/
def isSearchTool (t : String) : Bool :=
  strContains t "search" || strContains t "research"

/-- `validate_progress` (app.py lines 1777-1803), returning the insight
strings in order. -/
def validateProgress (iteration : Nat) (stepsLen : Nat)
    (recentTools : List String) : List String :=
  (if recentTools.length ≥ 3 && allEqStr (lastN 3 recentTools) then
    ["⚠️ Detected repeated tool usage - considering alternative approach"]
  else []) ++
  (if (recentTools.filter isSearchTool).length > 2 &&
      iteration < maxIterations - 1 then
    ["✅ Comprehensive information gathering in progress"]
  else []) ++
  (if stepsLen ≥ 2 && iteration ≥ maxIterations - 2 then
    ["🎯 Preparing for synthesis and final response"]
  else []) ++
  (if recentTools.isEmpty then
    ["🚀 Starting with information gathering"]
  else if (lastN 2 recentTools).all isSearchTool then
    ["💡 Consider analysis or calculation tools for deeper insights"]
  else [])

/-- The declared tool catalog of the continuation heuristics
(`available_tools`, app.py line 1944), in a fixed order standing in for
the Python set. -/
def availableTools : List String :=
  ["search_web_tool", "search_web_openrouter", "research_topic",
   "calculate_math", "create_note", "advanced_research_with_synthesis"]

/-- Words that make the continuation heuristics expect a computation
(app.py line 1959). -/
def mathyWords : List String :=
  ["calculate", "cost", "roi", "percentage", "compare", "analyze",
   "metrics", "performance"]

/-- The metacognitive system message injected for `iteration > 1`
(app.py lines 1882-1890). -/
def metacogMsg (totalTools : List String) (stepsLen : Nat)
    (insights : List String) : String :=
  "\n\nMETACOGNITIVE REFLECTION:\nPrevious tools used: " ++
    joinSep ", " (lastN 3 totalTools) ++
    "\nCurrent progress: " ++ toString stepsLen ++
    " steps completed\nValidation insights: " ++
    (if insights.isEmpty then "On track" else joinSep "; " insights) ++
    "\nConsider: Is the current approach optimal? Should I adapt my strategy?\n"

/-- Dispatches the tool calls of one response in order
(app.py lines 1896-1911), threading the conversation and bookkeeping; an
`Except.error` is an exception propagating out of
`get_tool_response_single`. -/
def toolPhase {Args V : Type} (argParse : String → Option Args)
    (toolImpl : String → Args → Except String V) (iteration : Nat) :
    List ToolCallRec → List (Msg V) → List String → List AStep →
    Except String (List (Msg V) × List String × List AStep)
  | [], msgs, used, steps => Except.ok (msgs, used, steps)
  | tc :: tcs, msgs, used, steps =>
    match get_tool_response_single argParse toolImpl tc with
    | Except.error e => Except.error e
    | Except.ok m =>
      toolPhase argParse toolImpl iteration tcs (msgs ++ [m])
        (used ++ [tc.name]) (steps ++ [⟨iteration, tc.name⟩])

/-- The per-round progress annotation (app.py lines 1914-1931): the new
`current_step` value and the reasoning text. -/
def classifyRound (iteration : Nat) (used : List String) :
    String × String :=
  let stepSuffix := " (Step " ++ toString iteration ++ "/" ++
    toString maxIterations ++ ")"
  if used.contains "search_web_tool" then
    ("information_gathering",
     "🔍 Gathering targeted information from the web..." ++ stepSuffix)
  else if used.contains "search_web_openrouter" then
    ("real_time_research",
     "🌐 Accessing real-time web information via Perplexity..." ++ stepSuffix)
  else if used.contains "research_topic" then
    ("comprehensive_research",
     "🔬 Conducting multi-dimensional research analysis..." ++ stepSuffix)
  else if used.contains "calculate_math" then
    ("quantitative_analysis",
     "🧮 Performing calculations and quantitative analysis..." ++ stepSuffix)
  else if used.contains "create_note" then
    ("knowledge_organization",
     "📝 Organizing and structuring findings..." ++ stepSuffix)
  else
    ("tool_execution",
     "🛠️ Executing specialized tools: " ++ joinSep ", " used ++ stepSuffix)

/-- The workflow summary appended to the final answer when tools were used
(app.py lines 2025-2039).  The `"{:.2f}"` float formatting of the
efficiency score is abstracted to `unique/total`. -/
def workflowSummary (objective : String) (iteration : Nat)
    (totalTools : List String) (steps : List AStep)
    (adaptations : List String) : String :=
  let uniqueTools := dedupFirst totalTools
  "\n\n---\n**🤖 Enhanced Agent Workflow Summary:**\n- **Objective**: " ++
    preview100 objective ++
    "\n- **Iterations Completed**: " ++ toString iteration ++ "/" ++
    toString maxIterations ++
    "\n- **Tools Utilized**: " ++ joinSep ", " uniqueTools ++
    "\n- **Efficiency Score**: " ++ toString uniqueTools.length ++ "/" ++
    toString totalTools.length ++ " (unique tools / total calls)" ++
    "\n- **Research Operations**: " ++
    toString ((steps.filter (fun s => isSearchTool s.tool)).length) ++
    "\n- **Strategy Adaptations**: " ++ toString adaptations.length ++
    "\n- **Quality Assurance**: ✅ Multi-source validation applied" ++
    "\n- **Status**: ✅ Task completed successfully with comprehensive analysis" ++
    (if adaptations.isEmpty then ""
     else "\n- **Adaptive Insights**: " ++ joinSep "; " (lastN 2 adaptations))

/-- Python's `s.endswith(post)` at the character-list level. -/
def strEndsWith (s post : String) : Bool :=
  post.data.isSuffixOf s.data

/-- The final-answer chunking loop (app.py lines 2044-2056): split on
`". "`, re-append `". "` to each sentence and flush on length, trailing
newline or bold marker. -/
def chunkFinalAux : List String → String → List String
  | [], acc => if acc ≠ "" then [acc] else []
  | s :: rest, acc =>
    let acc1 := acc ++ s ++ ". "
    if acc1.length > 100 || strEndsWith s "\n" || strContains s "**" then
      acc1 :: chunkFinalAux rest ""
    else
      chunkFinalAux rest acc1

def chunkFinal (s : String) : List String :=
  chunkFinalAux (splitOnSub ". " s) ""

/-- The fallback message on iteration exhaustion (app.py lines 2065-2070). -/
def fallbackMessage (stepsLen : Nat) (totalTools : List String)
    (currentStep : String) : String :=
  "I have reached the maximum number of iterations (" ++
    toString maxIterations ++
    ") while working on your request. However, I was able to complete " ++
    toString stepsLen ++ " steps using these tools: " ++
    joinSep ", " (dedupFirst totalTools) ++ ". Current progress: " ++
    currentStep ++
    ". The information gathered so far should still be valuable for addressing your query."

/-- The continuation/adaptation bookkeeping of one tool round (app.py
lines 1913-2004): the reasoning events yielded after the tool calls of
the round, and the loop state for the next iteration.  `adaptations1` is
the adaptation list after the validation insights of this round; `msgs3`,
`roundNames` and `steps3` come out of `toolPhase`. -/
def afterTools {V : Type} (query : String) (st : ALoopSt V)
    (iteration : Nat) (adaptations1 : List String)
    (msgs3 : List (Msg V)) (roundNames : List String)
    (steps3 : List AStep) : List AEv × ALoopSt V :=
  let total3 := st.totalTools ++ roundNames
  let cls := classifyRound iteration roundNames
  -- continuation heuristics (lines 1933-1966)
  let unused := availableTools.filter (fun t => !total3.contains t)
  let sr1 : Bool × List String :=
    if iteration < 3 then
      (true, ["Early exploration phase - gathering more information"])
    else (false, [])
  let sr2 : Bool × List String :=
    if unused.length > 2 && iteration < maxIterations - 1 then
      (true, sr1.2 ++ ["Multiple tools available for deeper analysis: "
        ++ joinSep ", " (unused.take 3)])
    else (sr1.1, sr1.2)
  let sr3 : Bool × List String :=
    if total3.contains "search_web_tool" &&
        !total3.contains "search_web_openrouter" &&
        iteration < maxIterations - 1 then
      (true, sr2.2 ++
        ["Can enhance with real-time web search for current information"])
    else (sr2.1, sr2.2)
  let sr4 : Bool × List String :=
    if (total3.any (fun t => strContains t "search")) &&
        !total3.contains "calculate_math" &&
        iteration < maxIterations - 1 &&
        mathyWords.any (fun w => strContains query.toLower w) then
      (true, sr3.2 ++
        ["Query suggests quantitative analysis would be valuable"])
    else (sr3.1, sr3.2)
  let sr5 : Bool × List String :=
    if steps3.length ≥ 2 && !total3.contains "create_note" &&
        iteration < maxIterations - 1 then
      (true, sr4.2 ++
        ["Multiple data sources gathered - synthesis and organization would be valuable"])
    else (sr4.1, sr4.2)
  -- adaptive strategy adjustment (lines 1968-1986)
  let adaptTriggered :=
    iteration > 2 && allEqStr (lastN 3 total3)
  let adaptPrompt :=
    "I notice I have been using the same tool (" ++
      (lastN 3 total3).headD "" ++
      ") repeatedly. Let me diversify my approach with different tools for a more comprehensive analysis."
  let evAdapt :=
    if adaptTriggered then [AEv.reasoning ("🔄 " ++ adaptPrompt)]
    else []
  let adaptations2 :=
    if adaptTriggered then
      adaptations1 ++ ["Iteration " ++ toString iteration ++
        ": Detected tool repetition, diversifying approach"]
    else adaptations1
  let sr6 : Bool × List String :=
    if adaptTriggered then
      (true, sr5.2 ++
        ["Diversifying tool usage for comprehensive analysis"])
    else (sr5.1, sr5.2)
  let msgs4 :=
    if adaptTriggered then
      msgs3 ++ [Msg.system ("ADAPTIVE GUIDANCE: " ++ adaptPrompt ++
        " You have " ++ toString (maxIterations - iteration) ++
        " iterations remaining. Consider using different tools like: "
        ++ joinSep ", " (unused.take 3) ++
        " to provide a more comprehensive analysis.")]
    else msgs3
  -- continuation (lines 1988-2004)
  let continueNow := sr6.1 && iteration < maxIterations
  let evCont :=
    if continueNow then
      [AEv.reasoning ("🔄 Continuing analysis - " ++
        joinSep "; " (sr6.2.take 2))]
    else []
  let msgs5 :=
    if continueNow then
      msgs4 ++ [Msg.system ("ITERATION " ++ toString (iteration + 1)
        ++ " GUIDANCE: You have completed " ++
        toString steps3.length ++
        " steps. Consider using these tools for deeper analysis: " ++
        joinSep ", " (unused.take 3) ++
        ". Focus on providing comprehensive, multi-faceted insights. You have "
        ++ toString (maxIterations - iteration) ++
        " iterations remaining to deliver exceptional value.")]
    else msgs4
  ([AEv.reasoning cls.2] ++ evAdapt ++ evCont,
   { messages := msgs5, iteration := iteration,
     totalTools := total3, steps := steps3,
     currentStep := cls.1, adaptations := adaptations2 })

/-- The chunk events of the natural-termination path (app.py lines
2016-2056): the final content — with the workflow summary appended when
tools were used — re-chunked sentence-wise; empty or absent content
yields no chunks. -/
def naturalEvents {V : Type} (query : String) (st : ALoopSt V)
    (iteration : Nat) (adaptations1 : List String)
    (content : Option String) : List AEv :=
  match content with
  | some fc =>
    if fc ≠ "" then
      let fc1 :=
        if !st.totalTools.isEmpty then
          fc ++ workflowSummary query iteration st.totalTools
            st.steps adaptations1
        else fc
      (chunkFinal fc1).map AEv.chunk
    else []
  | none => []

/-- Result of the fuelled loop body. -/
structure ALoopRes (V : Type) where
  events : List AEv
  st : ALoopSt V
  out : ACore

/-- The validation insights of the round entered from state `st`
(app.py lines 1874-1878). -/
def loopInsights {V : Type} (st : ALoopSt V) : List String :=
  validateProgress (st.iteration + 1) st.steps.length st.totalTools

/-- The adaptation list after the validation insights of the round: the
`extend` sits inside the `for insight` loop, so the list grows by the
whole insight list once per insight (app.py lines 1876-1878). -/
def loopAdaptations1 {V : Type} (st : ALoopSt V) : List String :=
  st.adaptations ++
    ((loopInsights st).map (fun _ => loopInsights st)).flatten

/-- The conversation sent to the provider this round: metacognitive
prompting prepends a system message for iterations after the first when
tools have been used (app.py lines 1881-1890). -/
def loopMsgs1 {V : Type} (st : ALoopSt V) : List (Msg V) :=
  if st.iteration + 1 > 1 && !st.totalTools.isEmpty then
    st.messages ++ [Msg.system (metacogMsg st.totalTools st.steps.length
      (loopInsights st))]
  else st.messages

/-- The `while iteration < max_iterations` loop of `run_agentic_loop`
(app.py lines 1869-2072), fuelled by the number of remaining admissible
iterations (`maxIterations - iteration`); `fuel = 0` is the loop condition
failing, which falls through to the fallback path (lines 2061-2072). -/
def agenticLoop {Args V : Type} (argParse : String → Option Args)
    (toolImpl : String → Args → Except String V)
    (provider : List (Msg V) → Except String ProvResp) (query : String) :
    Nat → ALoopSt V → ALoopRes V
  | 0, st =>
    { events := [AEv.chunk (fallbackMessage st.steps.length st.totalTools
                   st.currentStep), AEv.eos],
      st := st, out := ACore.exhausted }
  | fuel + 1, st =>
    let iteration := st.iteration + 1
    let evsV := (loopInsights st).map AEv.reasoning
    match provider (loopMsgs1 st) with
    | Except.error e =>
      { events := evsV,
        st := { st with messages := loopMsgs1 st, iteration := iteration,
                        adaptations := loopAdaptations1 st },
        out := ACore.errored e }
    | Except.ok resp =>
      -- `call_llm` appends the assistant message (lines 1814-1832)
      let msgs2 := loopMsgs1 st ++
        [Msg.assistant resp.content resp.toolCalls]
      match resp.toolCalls with
      | some tcs =>
        match toolPhase argParse toolImpl iteration tcs msgs2 [] st.steps with
        | Except.error e =>
          { events := evsV,
            st := { st with messages := msgs2, iteration := iteration,
                            adaptations := loopAdaptations1 st },
            out := ACore.errored e }
        | Except.ok (msgs3, roundNames, steps3) =>
          let pr := afterTools query st iteration (loopAdaptations1 st)
            msgs3 roundNames steps3
          let rec1 := agenticLoop argParse toolImpl provider query fuel pr.2
          { events := evsV ++ pr.1 ++ rec1.events,
            st := rec1.st, out := rec1.out }
      | none =>
        -- natural termination (lines 2006-2059)
        { events := evsV ++ naturalEvents query st iteration
            (loopAdaptations1 st) resp.content ++ [AEv.eos],
          st := { st with messages := msgs2, iteration := iteration,
                          currentStep := "synthesis_and_delivery",
                          adaptations := loopAdaptations1 st },
          out := ACore.natural resp.content }

/-- Stand-in for the (claim-irrelevant) large agentic system prompt. -/
def agenticSystemPrompt : String :=
  "You are Comet, an advanced AI agent built with agentic primitives."

/-- Initial loop state (app.py lines 1762-1765 and 1862-1864). -/
def initALoopSt (V : Type) (query : String) : ALoopSt V :=
  { messages := [Msg.system agenticSystemPrompt, Msg.user query],
    iteration := 0, totalTools := [], steps := [],
    currentStep := "analysis", adaptations := [] }

/-- The error message built by the outer `except` handler
(app.py lines 2074-2088). -/
def agenticErrMsg (e : String) : String :=
  "Agentic loop error: " ++ e ++
    (if strContains e "NameError" then
      " (Function definition issue - please check server logs)"
    else if strContains e "APIError" then
      " (API communication issue - please check API keys and connectivity)"
    else if strContains e "JSONDecodeError" then
      " (Response parsing issue - please try again)"
    else "")

/-- How one full run of the `run_agentic_loop` generator went: the events
yielded, the final loop bookkeeping and the way the loop ended. -/
structure AgenticResult where
  events : List AEv
  iterations : Nat
  outcome : AOutcome
  toolsUsed : List String
  steps : List AStep
  adaptations : List String
  currentStep : String
  finalContent : Option String

/-- Number of `end_of_stream` events. -/
def countEos : List AEv → Nat
  | [] => 0
  | AEv.eos :: es => countEos es + 1
  | _ :: es => countEos es

/-- The texts of the `chunk` events, in order. -/
def chunkTexts : List AEv → List String
  | [] => []
  | AEv.chunk s :: es => s :: chunkTexts es
  | _ :: es => chunkTexts es

/-- Concatenation of a list of strings. -/
def joinAll : List String → String
  | [] => ""
  | s :: ss => s ++ joinAll ss

/-- `run_agentic_loop` (app.py lines 1648-2088) as a whole: the API-key
guard, the initial planning event, the loop, and the outer exception
handler that converts a raised exception into an error event after the
events already yielded. -/
def run_agentic_loop {Args V : Type} (argParse : String → Option Args)
    (toolImpl : String → Args → Except String V)
    (provider : List (Msg V) → Except String ProvResp) (query : String)
    (apiKeyConfigured : Bool) : AgenticResult :=
  if !apiKeyConfigured then
    { events :=
        [AEv.errorEv "OpenRouter API key not configured for agentic mode."],
      iterations := 0, outcome := AOutcome.noApiKey, toolsUsed := [],
      steps := [], adaptations := [], currentStep := "analysis",
      finalContent := none }
  else
    let initEv := AEv.reasoning
      "🧠 Analyzing request and planning optimal approach..."
    let r := agenticLoop argParse toolImpl provider query maxIterations
      (initALoopSt V query)
    match r.out with
    | ACore.natural c =>
      { events := initEv :: r.events, iterations := r.st.iteration,
        outcome := AOutcome.natural, toolsUsed := r.st.totalTools,
        steps := r.st.steps, adaptations := r.st.adaptations,
        currentStep := r.st.currentStep, finalContent := c }
    | ACore.exhausted =>
      { events := initEv :: r.events, iterations := r.st.iteration,
        outcome := AOutcome.exhausted, toolsUsed := r.st.totalTools,
        steps := r.st.steps, adaptations := r.st.adaptations,
        currentStep := r.st.currentStep, finalContent := none }
    | ACore.errored e =>
      { events := (initEv :: r.events) ++ [AEv.errorEv (agenticErrMsg e)],
        iterations := r.st.iteration, outcome := AOutcome.errored e,
        toolsUsed := r.st.totalTools, steps := r.st.steps,
        adaptations := r.st.adaptations, currentStep := r.st.currentStep,
        finalContent := none }

/-- Fixture: a provider that immediately answers "Hi" with no tool calls
(for exercising the natural-termination path of the agentic loop). -/
def c3Provider : List (Msg Unit) → Except String ProvResp :=
  fun _ => Except.ok { content := some "Hi", toolCalls := none }

/-- Fixture: an argument parser for the agentic-loop fixtures. -/
def c3ArgParse : String → Option Unit :=
  fun s => if s = "" then none else some ()

/-- Fixture: a trivial tool implementation for the agentic-loop fixtures. -/
def c3ToolImpl : String → Unit → Except String Unit :=
  fun _ _ => Except.ok ()

/-! ## Lemmas about the substring primitives -/

theorem isPrefixOf_iff_exists {p h : List Char} :
    p.isPrefixOf h = true ↔ ∃ t, h = p ++ t := by
  induction p generalizing h with
  | nil => simp [List.isPrefixOf]
  | cons a as ih =>
    cases h with
    | nil => simp [List.isPrefixOf]
    | cons b bs =>
      simp only [List.isPrefixOf, Bool.and_eq_true, beq_iff_eq, ih,
        List.cons_append, List.cons.injEq]
      constructor
      · rintro ⟨rfl, t, rfl⟩
        exact ⟨t, rfl, rfl⟩
      · rintro ⟨t, rfl, rfl⟩
        exact ⟨rfl, t, rfl⟩

theorem isPrefixOf_refl (l : List Char) : l.isPrefixOf l = true :=
  isPrefixOf_iff_exists.mpr ⟨[], by simp⟩

theorem isPrefixOf_append_self (p t : List Char) :
    p.isPrefixOf (p ++ t) = true :=
  isPrefixOf_iff_exists.mpr ⟨t, rfl⟩

theorem isPrefixOf_append_right {p h : List Char} (e : List Char)
    (hp : p.isPrefixOf h = true) : p.isPrefixOf (h ++ e) = true := by
  obtain ⟨t, rfl⟩ := isPrefixOf_iff_exists.mp hp
  exact isPrefixOf_iff_exists.mpr ⟨t ++ e, by simp⟩

theorem isPrefixOf_of_append_of_le {p h e : List Char}
    (hp : p.isPrefixOf (h ++ e) = true) (hle : p.length ≤ h.length) :
    p.isPrefixOf h = true := by
  obtain ⟨t, ht⟩ := isPrefixOf_iff_exists.mp hp
  refine isPrefixOf_iff_exists.mpr ⟨h.drop p.length, ?_⟩
  have h1 : (h ++ e).take p.length = p := by
    rw [ht]
    simp [List.take_append_eq_append_take]
  have h2 : (h ++ e).take p.length = h.take p.length := by
    simp [List.take_append_eq_append_take, Nat.sub_eq_zero_of_le hle]
  conv_lhs => rw [← List.take_append_drop p.length h]
  rw [← h2, h1]

theorem occursAt_iff_exists {pat hay : List Char} {i : Nat} :
    occursAt pat hay i = true ↔ ∃ t, hay.drop i = pat ++ t := by
  simp only [occursAt]
  exact isPrefixOf_iff_exists

theorem findSub_some_occursAt {pat hay : List Char} {i : Nat}
    (h : findSub pat hay = some i) : occursAt pat hay i = true := by
  induction hay generalizing i with
  | nil =>
    simp only [findSub] at h
    split at h
    · rename_i hp
      cases h
      simpa [occursAt] using hp
    · cases h
  | cons c t ih =>
    simp only [findSub] at h
    split at h
    · rename_i hp
      cases h
      simpa [occursAt] using hp
    · rename_i hp
      rcases Option.map_eq_some'.mp h with ⟨j, hj, rfl⟩
      have := ih hj
      simpa [occursAt] using this

theorem findSub_some_min {pat hay : List Char} {i : Nat}
    (h : findSub pat hay = some i) :
    ∀ j, j < i → occursAt pat hay j = false := by
  induction hay generalizing i with
  | nil =>
    simp only [findSub] at h
    split at h
    · cases h
      intro j hj
      omega
    · cases h
  | cons c t ih =>
    simp only [findSub] at h
    split at h
    · cases h
      intro j hj
      omega
    · rename_i hp
      rcases Option.map_eq_some'.mp h with ⟨j0, hj0, rfl⟩
      intro j hj
      cases j with
      | zero =>
        simpa [occursAt] using Bool.eq_false_iff.mpr hp
      | succ k =>
        have := ih hj0 k (by omega)
        simpa [occursAt] using this

theorem occursAt_findSub_le {pat hay : List Char} {i : Nat}
    (h : occursAt pat hay i = true) :
    ∃ j, j ≤ i ∧ findSub pat hay = some j := by
  induction hay generalizing i with
  | nil =>
    refine ⟨0, Nat.zero_le _, ?_⟩
    simp only [occursAt, List.drop_nil] at h
    simp [findSub, h]
  | cons c t ih =>
    by_cases hp : pat.isPrefixOf (c :: t) = true
    · exact ⟨0, Nat.zero_le _, by simp [findSub, hp]⟩
    · cases i with
      | zero =>
        simp only [occursAt, List.drop_zero] at h
        exact absurd h hp
      | succ k =>
        simp only [occursAt, List.drop_succ_cons] at h
        obtain ⟨j, hj, hfind⟩ := ih h
        refine ⟨j + 1, by omega, ?_⟩
        simp [findSub, hp, hfind]

theorem findSub_eq_some_of_min {pat hay : List Char} {i : Nat}
    (h : occursAt pat hay i = true)
    (hmin : ∀ j, j < i → occursAt pat hay j = false) :
    findSub pat hay = some i := by
  obtain ⟨j, hj, hfind⟩ := occursAt_findSub_le h
  rcases Nat.lt_or_ge j i with hlt | hge
  · have := findSub_some_occursAt hfind
    rw [hmin j hlt] at this
    cases this
  · have : j = i := le_antisymm hj hge
    rwa [this] at hfind

theorem containsSub_iff_exists {pat hay : List Char} :
    containsSub pat hay = true ↔ ∃ i, occursAt pat hay i = true := by
  constructor
  · intro h
    rcases Option.isSome_iff_exists.mp h with ⟨i, hi⟩
    exact ⟨i, findSub_some_occursAt hi⟩
  · rintro ⟨i, hi⟩
    obtain ⟨j, _, hfind⟩ := occursAt_findSub_le hi
    simp [containsSub, hfind]

theorem occursAt_append_right {pat hay : List Char} {i : Nat}
    (e : List Char) (h : occursAt pat hay i = true) :
    occursAt pat (hay ++ e) i = true := by
  simp only [occursAt] at h ⊢
  rw [List.drop_append_eq_append_drop]
  exact isPrefixOf_append_right _ h

theorem occursAt_shift {pat w : List Char} (u : List Char) {i : Nat} :
    occursAt pat (u ++ w) (u.length + i) = occursAt pat w i := by
  simp only [occursAt]
  rw [List.drop_append_eq_append_drop]
  have h1 : u.drop (u.length + i) = [] := by
    apply List.drop_eq_nil_of_le
    omega
  have h2 : u.length + i - u.length = i := by omega
  rw [h1, h2, List.nil_append]

theorem occursAt_ne_nil_bound {pat hay : List Char} {i : Nat}
    (h : occursAt pat hay i = true) (hne : pat ≠ []) :
    i + pat.length ≤ hay.length := by
  obtain ⟨t, ht⟩ := occursAt_iff_exists.mp h
  have hi : i ≤ hay.length := by
    by_contra hgt
    have : hay.drop i = [] := List.drop_eq_nil_of_le (by omega)
    rw [this] at ht
    have := congrArg List.length ht
    simp at this
    exact hne (List.eq_nil_of_length_eq_zero (by omega))
  have := congrArg List.length ht
  simp [List.length_drop] at this
  omega

theorem occursAt_of_append_left {pat hay e : List Char} {i : Nat}
    (h : occursAt pat (hay ++ e) i = true)
    (hle : i + pat.length ≤ hay.length) :
    occursAt pat hay i = true := by
  simp only [occursAt] at h ⊢
  rw [List.drop_append_eq_append_drop, Nat.sub_eq_zero_of_le (by omega),
    List.drop_zero] at h
  refine isPrefixOf_of_append_of_le h ?_
  simp [List.length_drop]
  omega

theorem containsSub_mono_right {pat hay : List Char} (e : List Char)
    (h : containsSub pat hay = true) : containsSub pat (hay ++ e) = true := by
  obtain ⟨i, hi⟩ := containsSub_iff_exists.mp h
  exact containsSub_iff_exists.mpr ⟨i, occursAt_append_right e hi⟩

theorem containsSub_mono_left {pat hay : List Char} (e : List Char)
    (h : containsSub pat hay = true) : containsSub pat (e ++ hay) = true := by
  obtain ⟨i, hi⟩ := containsSub_iff_exists.mp h
  refine containsSub_iff_exists.mpr ⟨e.length + i, ?_⟩
  rw [occursAt_shift]
  exact hi

theorem containsSub_of_infix {pat a b c : List Char}
    (h : containsSub pat b = true) :
    containsSub pat (a ++ b ++ c) = true := by
  rw [List.append_assoc]
  exact containsSub_mono_left a (containsSub_mono_right c h)

theorem containsSub_self (l : List Char) : containsSub l l = true :=
  containsSub_iff_exists.mpr
    ⟨0, by simp only [occursAt, List.drop_zero]; exact isPrefixOf_refl l⟩

theorem containsSub_append_self_left (l e : List Char) :
    containsSub l (l ++ e) = true :=
  containsSub_mono_right e (containsSub_self l)

theorem containsSub_append_self_right (e l : List Char) :
    containsSub l (e ++ l) = true :=
  containsSub_mono_left e (containsSub_self l)

theorem occursAt_decomp {pat hay : List Char} {i : Nat}
    (h : occursAt pat hay i = true) :
    hay = hay.take i ++ pat ++ hay.drop (i + pat.length) := by
  obtain ⟨t, ht⟩ := occursAt_iff_exists.mp h
  have hdrop : hay.drop (i + pat.length) = t := by
    rw [← List.drop_drop, ht, List.drop_left]
  rw [hdrop, List.append_assoc, ← ht, List.take_append_drop]

theorem containsSub_trans {pat b hay : List Char}
    (hb : containsSub b hay = true) (hp : containsSub pat b = true) :
    containsSub pat hay = true := by
  obtain ⟨i, hi⟩ := containsSub_iff_exists.mp hb
  have := occursAt_decomp hi
  rw [this]
  exact containsSub_of_infix hp

theorem findSub_drop_head {pat u w : List Char} {k : Nat}
    (h : findSub pat (u ++ w) = some (u.length + k)) :
    findSub pat w = some k := by
  have hocc : occursAt pat w k = true := by
    have := findSub_some_occursAt h
    rwa [occursAt_shift u] at this
  refine findSub_eq_some_of_min hocc ?_
  intro j hj
  have := findSub_some_min h (u.length + j) (by omega)
  rwa [occursAt_shift u] at this

theorem findSub_append_right {pat h : List Char} {i : Nat} (e : List Char)
    (hne : pat ≠ []) (hf : findSub pat h = some i) :
    findSub pat (h ++ e) = some i := by
  have hocc := findSub_some_occursAt hf
  have hbound := occursAt_ne_nil_bound hocc hne
  refine findSub_eq_some_of_min (occursAt_append_right e hocc) ?_
  intro j hj
  have hjb : j + pat.length ≤ h.length := by omega
  by_contra hcon
  have htrue : occursAt pat (h ++ e) j = true := by
    cases hx : occursAt pat (h ++ e) j
    · exact absurd hx hcon
    · rfl
  have := occursAt_of_append_left htrue hjb
  rw [findSub_some_min hf j hj] at this
  cases this

theorem not_containsSub_of_findSub_append {pat pre : List Char}
    (hne : pat ≠ []) (h : findSub pat (pre ++ pat) = some pre.length) :
    containsSub pat pre = false := by
  cases hx : containsSub pat pre
  · rfl
  · obtain ⟨i, hi⟩ := containsSub_iff_exists.mp hx
    have hbound := occursAt_ne_nil_bound hi hne
    have hlt : i < pre.length := by
      have : 0 < pat.length := List.length_pos.mpr hne
      omega
    have := findSub_some_min h i hlt
    rw [occursAt_append_right pat hi] at this
    cases this

theorem startMarker_ne_nil : startMarker ≠ [] := by decide

theorem endMarker_ne_nil : endMarker ≠ [] := by decide

/-! ## Reassembler phase lemmas -/

theorem processDelta_noStart {J : Type} (parse : List Char → Option J)
    (buf d : List Char) (h : containsSub startMarker (buf ++ d) = false) :
    processDelta parse ⟨buf, false, []⟩ d =
      if flushCond (buf ++ d) then (⟨[], false, []⟩, [REv.chunk (buf ++ d)])
      else (⟨buf ++ d, false, []⟩, []) := by
  simp only [processDelta, h]
  cases hf : flushCond (buf ++ d) <;> simp [hf]

theorem processDelta_inBlockAbsorb {J : Type} (parse : List Char → Option J)
    (g d : List Char) (h : containsSub endMarker d = false) :
    processDelta parse ⟨[], true, g⟩ d = (⟨[], true, g ++ d⟩, []) := by
  simp [processDelta, h, flushCond]

theorem runDeltas_noStart {J : Type} (parse : List Char → Option J) :
    ∀ (ds : List (List Char)) (buf : List Char),
      containsSub startMarker (buf ++ ds.flatten) = false →
      ∃ (buf2 : List Char) (cs : List (List Char)),
        runDeltas parse ⟨buf, false, []⟩ ds =
          (⟨buf2, false, []⟩, cs.map REv.chunk) ∧
        cs.flatten ++ buf2 = buf ++ ds.flatten ∧
        ∀ c ∈ cs, containsSub c (buf ++ ds.flatten) = true
  | [], buf, _ => by
    refine ⟨buf, [], ?_, ?_, ?_⟩ <;> simp [runDeltas]
  | d :: ds, buf, h => by
    have hassoc : buf ++ (d :: ds).flatten = (buf ++ d) ++ ds.flatten := by
      simp
    have hstep : containsSub startMarker (buf ++ d) = false := by
      cases hx : containsSub startMarker (buf ++ d)
      · rfl
      · rw [hassoc] at h
        rw [containsSub_mono_right ds.flatten hx] at h
        cases h
    cases hf : flushCond (buf ++ d) with
    | true =>
      have hrec : containsSub startMarker ([] ++ ds.flatten) = false := by
        cases hx : containsSub startMarker ([] ++ ds.flatten)
        · rfl
        · rw [List.nil_append] at hx
          rw [hassoc] at h
          rw [containsSub_mono_left (buf ++ d) hx] at h
          cases h
      obtain ⟨buf2, cs, heq, hflat, hmem⟩ := runDeltas_noStart parse ds [] hrec
      refine ⟨buf2, (buf ++ d) :: cs, ?_, ?_, ?_⟩
      · simp [runDeltas, processDelta_noStart parse buf d hstep, hf, heq]
      · rw [List.nil_append] at hflat
        simp only [List.flatten_cons, List.append_assoc, hflat, hassoc]
      · intro c hc
        rcases List.mem_cons.mp hc with rfl | hc2
        · rw [hassoc]
          exact containsSub_append_self_left (buf ++ d) ds.flatten
        · have := hmem c hc2
          rw [List.nil_append] at this
          rw [hassoc]
          exact containsSub_mono_left (buf ++ d) this
    | false =>
      have hrec : containsSub startMarker ((buf ++ d) ++ ds.flatten) = false := by
        rw [← hassoc]
        exact h
      obtain ⟨buf2, cs, heq, hflat, hmem⟩ :=
        runDeltas_noStart parse ds (buf ++ d) hrec
      refine ⟨buf2, cs, ?_, ?_, ?_⟩
      · simp [runDeltas, processDelta_noStart parse buf d hstep, hf, heq]
      · rw [hflat, hassoc]
      · intro c hc
        have := hmem c hc
        rwa [hassoc]

theorem runDeltas_inBlock {J : Type} (parse : List Char → Option J) :
    ∀ (ds : List (List Char)) (g : List Char),
      containsSub endMarker ds.flatten = false →
      runDeltas parse ⟨[], true, g⟩ ds = (⟨[], true, g ++ ds.flatten⟩, [])
  | [], g, _ => by simp [runDeltas]
  | d :: ds, g, h => by
    have hd : containsSub endMarker d = false := by
      cases hx : containsSub endMarker d
      · rfl
      · rw [List.flatten_cons, containsSub_mono_right ds.flatten hx] at h
        cases h
    have hrest : containsSub endMarker ds.flatten = false := by
      cases hx : containsSub endMarker ds.flatten
      · rfl
      · rw [List.flatten_cons, containsSub_mono_left d hx] at h
        cases h
    simp only [runDeltas, processDelta_inBlockAbsorb parse g d hd,
      runDeltas_inBlock parse ds (g ++ d) hrest]
    simp

theorem runDeltas_append {J : Type} (parse : List Char → Option J)
    (xs ys : List (List Char)) (st : RState) :
    runDeltas parse st (xs ++ ys) =
      ((runDeltas parse (runDeltas parse st xs).1 ys).1,
        (runDeltas parse st xs).2 ++
          (runDeltas parse (runDeltas parse st xs).1 ys).2) := by
  induction xs generalizing st with
  | nil => simp [runDeltas]
  | cons x xs ih =>
    simp only [List.cons_append, runDeltas, List.append_eq]
    rw [ih]
    simp [List.append_assoc]

theorem splitFirst_eval {pat u w : List Char}
    (hfind : findSub pat (u ++ (pat ++ w)) = some u.length) :
    splitFirst pat (u ++ (pat ++ w)) = (u, w) := by
  unfold splitFirst
  rw [hfind]
  refine Prod.ext ?_ ?_
  · show (u ++ (pat ++ w)).take u.length = u
    exact List.take_left u (pat ++ w)
  · show (u ++ (pat ++ w)).drop (u.length + pat.length) = w
    rw [show u ++ (pat ++ w) = (u ++ pat) ++ w by simp,
      show u.length + pat.length = (u ++ pat).length by simp]
    exact List.drop_left _ _

theorem processDelta_startDelta {J : Type} (parse : List Char → Option J)
    (P a b : List Char)
    (hfind : findSub startMarker ((P ++ a) ++ (startMarker ++ b)) =
      some (P ++ a).length)
    (hend : containsSub endMarker b = false) :
    processDelta parse ⟨P, false, []⟩ (a ++ (startMarker ++ b)) =
      (⟨[], true, b⟩, if P ++ a ≠ [] then [REv.chunk (P ++ a)] else []) := by
  have hbuf : P ++ (a ++ (startMarker ++ b)) = (P ++ a) ++ (startMarker ++ b) := by
    simp
  have hcont : containsSub startMarker (P ++ (a ++ (startMarker ++ b))) = true := by
    rw [hbuf]
    unfold containsSub
    rw [hfind]
    rfl
  have hsplit : splitFirst startMarker (P ++ (a ++ (startMarker ++ b))) =
      (P ++ a, b) := by
    rw [hbuf]
    exact splitFirst_eval hfind
  simp only [processDelta, hcont, hsplit, hend, Bool.not_false, Bool.and_self,
    Bool.true_and, if_true]
  simp [hend]

theorem processDelta_endDelta {J : Type} (parse : List Char → Option J)
    (g c d : List Char) (v : J)
    (hfind : findSub endMarker (c ++ (endMarker ++ d)) = some c.length)
    (hparse : parse (g ++ c) = some v) :
    processDelta parse ⟨[], true, g⟩ (c ++ (endMarker ++ d)) =
      (⟨if flushCond d then [] else d, false, []⟩,
        REv.chart v :: (if flushCond d then [REv.chunk d] else [])) := by
  have hcont : containsSub endMarker (c ++ (endMarker ++ d)) = true := by
    unfold containsSub
    rw [hfind]
    rfl
  have hsplit := splitFirst_eval hfind
  cases hf : flushCond d <;>
    simp [processDelta, hcont, hsplit, hparse, hf]

theorem processDelta_wholeBlock {J : Type} (parse : List Char → Option J)
    (P a js d : List Char) (v : J)
    (hfindS : findSub startMarker
      ((P ++ a) ++ (startMarker ++ (js ++ (endMarker ++ d)))) =
      some (P ++ a).length)
    (hfindE : findSub endMarker (js ++ (endMarker ++ d)) = some js.length)
    (hparse : parse js = some v) :
    processDelta parse ⟨P, false, []⟩
        (a ++ (startMarker ++ (js ++ (endMarker ++ d)))) =
      (⟨if flushCond d then [] else d, false, []⟩,
        (if P ++ a ≠ [] then [REv.chunk (P ++ a)] else []) ++
          (REv.chart v :: (if flushCond d then [REv.chunk d] else []))) := by
  have hbuf : P ++ (a ++ (startMarker ++ (js ++ (endMarker ++ d)))) =
      (P ++ a) ++ (startMarker ++ (js ++ (endMarker ++ d))) := by
    simp
  have hcont : containsSub startMarker
      (P ++ (a ++ (startMarker ++ (js ++ (endMarker ++ d))))) = true := by
    rw [hbuf]
    unfold containsSub
    rw [hfindS]
    rfl
  have hsplit : splitFirst startMarker
      (P ++ (a ++ (startMarker ++ (js ++ (endMarker ++ d))))) =
      (P ++ a, js ++ (endMarker ++ d)) := by
    rw [hbuf]
    exact splitFirst_eval hfindS
  have hcontE : containsSub endMarker (js ++ (endMarker ++ d)) = true := by
    unfold containsSub
    rw [hfindE]
    rfl
  have hsplitE := splitFirst_eval hfindE
  cases hf : flushCond d <;>
    simp [processDelta, hcont, hsplit, hcontE, hsplitE, hparse, hf]

theorem finishStream_notInBlock {J : Type} (buf : List Char) :
    (finishStream ⟨buf, false, []⟩ : List (REv J)) =
      if buf ≠ [] then [REv.chunk buf] else [] := by
  simp [finishStream]

theorem chunksOf_map_chunk {J : Type} (cs : List (List Char)) :
    chunksOf (cs.map (REv.chunk (J := J))) = cs := by
  induction cs with
  | nil => rfl
  | cons c cs ih => simp [chunksOf, ih]

theorem chartsOf_map_chunk {J : Type} (cs : List (List Char)) :
    chartsOf (cs.map (REv.chunk (J := J))) = [] := by
  induction cs with
  | nil => rfl
  | cons c cs ih => simp [chartsOf, ih]

theorem chunksOf_append {J : Type} (xs ys : List (REv J)) :
    chunksOf (xs ++ ys) = chunksOf xs ++ chunksOf ys := by
  induction xs with
  | nil => rfl
  | cons x xs ih => cases x <;> simp [chunksOf, ih]

theorem chartsOf_append {J : Type} (xs ys : List (REv J)) :
    chartsOf (xs ++ ys) = chartsOf xs ++ chartsOf ys := by
  induction xs with
  | nil => rfl
  | cons x xs ih => cases x <;> simp [chartsOf, ih]

theorem not_contains_of_sub {pat c X : List Char}
    (hc : containsSub c X = true) (hX : containsSub pat X = false) :
    containsSub pat c = false := by
  cases h : containsSub pat c
  · rfl
  · rw [containsSub_trans hc h] at hX
    cases hX

/-- Processing the deltas before the start sentinel: the pre-text is
carried in flushed chunks plus the leftover buffer, and the first
occurrence of the start marker after appending it sits exactly at the end
of the unemitted pre-text. -/
theorem reassemble_head {J : Type} (parse : List Char → Option J)
    (preD : List (List Char)) (a pre : List Char)
    (hpre : pre = preD.flatten ++ a)
    (hSfind : findSub startMarker (pre ++ startMarker) = some pre.length)
    (hEpre : containsSub endMarker pre = false) :
    ∃ (P : List Char) (csA : List (List Char)),
      runDeltas parse initRState preD =
        (⟨P, false, []⟩, csA.map REv.chunk) ∧
      findSub startMarker ((P ++ a) ++ startMarker) =
        some (P ++ a).length ∧
      csA.flatten ++ (P ++ a) = pre ∧
      (∀ c ∈ csA, containsSub startMarker c = false ∧
        containsSub endMarker c = false) ∧
      containsSub startMarker (P ++ a) = false ∧
      containsSub endMarker (P ++ a) = false := by
  have hSpre : containsSub startMarker pre = false :=
    not_containsSub_of_findSub_append startMarker_ne_nil hSfind
  have hpreD : containsSub startMarker ([] ++ preD.flatten) = false := by
    rw [List.nil_append]
    cases hx : containsSub startMarker preD.flatten
    · rfl
    · have := containsSub_mono_right a hx
      rw [← hpre, hSpre] at this
      cases this
  obtain ⟨P, csA, heq, hflat, hmem⟩ := runDeltas_noStart parse preD [] hpreD
  rw [List.nil_append] at hflat hmem
  have hpre2 : csA.flatten ++ (P ++ a) = pre := by
    rw [hpre, ← hflat]
    simp
  have hPa : containsSub startMarker (P ++ a) = false ∧
      containsSub endMarker (P ++ a) = false := by
    have hin : containsSub (P ++ a) pre = true := by
      rw [← hpre2]
      exact containsSub_append_self_right csA.flatten (P ++ a)
    exact ⟨not_contains_of_sub hin hSpre, not_contains_of_sub hin hEpre⟩
  refine ⟨P, csA, ?_, ?_, hpre2, ?_, hPa.1, hPa.2⟩
  · unfold initRState
    exact heq
  · have hshape : pre ++ startMarker =
        csA.flatten ++ ((P ++ a) ++ startMarker) := by
      rw [← hpre2]
      simp
    have hlen : pre.length = csA.flatten.length + (P ++ a).length := by
      rw [← hpre2]
      simp
    rw [hshape, hlen] at hSfind
    exact findSub_drop_head hSfind
  · intro c hc
    have hin : containsSub c pre = true := by
      rw [hpre]
      exact containsSub_mono_right a (hmem c hc)
    exact ⟨not_contains_of_sub hin hSpre, not_contains_of_sub hin hEpre⟩

/-- Processing the deltas after the end sentinel plus the final flush:
the post-text is emitted verbatim, in order, as chunks free of sentinel
occurrences, and no structured payload is produced. -/
theorem reassemble_tail {J : Type} (parse : List Char → Option J)
    (postD : List (List Char)) (buf0 post : List Char)
    (hpost : post = buf0 ++ postD.flatten)
    (hSpost : containsSub startMarker post = false)
    (hEpost : containsSub endMarker post = false) :
    ∃ evs2 : List (REv J),
      (runDeltas parse ⟨buf0, false, []⟩ postD).2 ++
        finishStream (runDeltas parse ⟨buf0, false, []⟩ postD).1 = evs2 ∧
      chartsOf evs2 = [] ∧ (chunksOf evs2).flatten = post ∧
      ∀ c ∈ chunksOf evs2, containsSub startMarker c = false ∧
        containsSub endMarker c = false := by
  have hS : containsSub startMarker (buf0 ++ postD.flatten) = false := by
    rw [← hpost]
    exact hSpost
  obtain ⟨Q, csD, heq, hflat, hmem⟩ := runDeltas_noStart parse postD buf0 hS
  refine ⟨csD.map REv.chunk ++
      (if Q ≠ [] then [REv.chunk (J := J) Q] else []), ?_, ?_, ?_, ?_⟩
  · rw [heq, finishStream_notInBlock]
  · rw [chartsOf_append, chartsOf_map_chunk]
    cases hq : Q
    · simp [chartsOf]
    · simp [chartsOf]
  · have hQ : (chunksOf (if Q ≠ [] then [REv.chunk (J := J) Q] else [])).flatten = Q := by
      cases hq : Q <;> simp [chunksOf]
    rw [chunksOf_append, chunksOf_map_chunk, List.flatten_append, hQ,
      hflat, hpost]
  · intro c hc
    rw [chunksOf_append, chunksOf_map_chunk, List.mem_append] at hc
    have hin : containsSub c post = true := by
      rcases hc with hc | hc
      · rw [hpost]
        exact hmem c hc
      · have hcq : c = Q := by
          cases hq : Q <;> rw [hq] at hc <;> simp [chunksOf] at hc
          · exact hc
        rw [hcq, hpost, ← hflat]
        exact containsSub_append_self_right csD.flatten Q
    exact ⟨not_contains_of_sub hin hSpost, not_contains_of_sub hin hEpost⟩

theorem reassemble_eq {J : Type} (parse : List Char → Option J)
    (ds : List (List Char)) :
    reassemble parse ds = (runDeltas parse initRState ds).2 ++
      finishStream (runDeltas parse initRState ds).1 := rfl

theorem chunksOf_chart_cons {J : Type} (v : J) (ys : List (REv J)) :
    chunksOf (REv.chart v :: ys) = chunksOf ys := rfl

/-- The round-trip property for the tail of the stream, starting from the
state just after the end sentinel was consumed (`buffer` holding the
remainder `d` of the end-sentinel delta, or empty after a flush). -/
theorem roundtrip_after_block {J : Type} (parse : List Char → Option J)
    (d : List Char) (postD : List (List Char)) (post : List Char)
    (hpost : post = d ++ postD.flatten)
    (hSpost : containsSub startMarker post = false)
    (hEpost : containsSub endMarker post = false) :
    ∃ evs2 : List (REv J),
      (if flushCond d then [REv.chunk (J := J) d] else []) ++
        ((runDeltas parse ⟨if flushCond d then [] else d, false, []⟩
          postD).2 ++
        finishStream (runDeltas parse
          ⟨if flushCond d then [] else d, false, []⟩ postD).1) = evs2 ∧
      chartsOf evs2 = [] ∧ (chunksOf evs2).flatten = post ∧
      ∀ c ∈ chunksOf evs2, containsSub startMarker c = false ∧
        containsSub endMarker c = false := by
  cases hf : flushCond d with
  | true =>
    have hS2 : containsSub startMarker postD.flatten = false := by
      cases hx : containsSub startMarker postD.flatten
      · rfl
      · have := containsSub_mono_left d hx
        rw [← hpost, hSpost] at this
        cases this
    have hE2 : containsSub endMarker postD.flatten = false := by
      cases hx : containsSub endMarker postD.flatten
      · rfl
      · have := containsSub_mono_left d hx
        rw [← hpost, hEpost] at this
        cases this
    obtain ⟨tl, htl, hch, hfl, hm⟩ := reassemble_tail parse postD []
      postD.flatten (by simp) hS2 hE2
    refine ⟨REv.chunk d :: tl, ?_, ?_, ?_, ?_⟩
    · simp only [if_true, List.singleton_append, List.cons.injEq, true_and]
      exact htl
    · simp [chartsOf, hch]
    · simp [chunksOf, hfl, hpost]
    · intro c hc
      rcases List.mem_cons.mp (by simpa [chunksOf] using hc) with rfl | hc2
      · have hin : containsSub c post = true := by
          rw [hpost]
          exact containsSub_append_self_left c postD.flatten
        exact ⟨not_contains_of_sub hin hSpost, not_contains_of_sub hin hEpost⟩
      · exact hm c hc2
  | false =>
    obtain ⟨tl, htl, hch, hfl, hm⟩ := reassemble_tail parse postD d
      post hpost hSpost hEpost
    refine ⟨tl, ?_, hch, hfl, hm⟩
    simp only [Bool.false_eq_true, if_false, List.nil_append]
    exact htl

theorem runDeltas_cons {J : Type} (parse : List Char → Option J)
    (st : RState) (dd : List Char) (ds : List (List Char)) :
    runDeltas parse st (dd :: ds) =
      ((runDeltas parse (processDelta parse st dd).1 ds).1,
        (processDelta parse st dd).2 ++
          (runDeltas parse (processDelta parse st dd).1 ds).2) := rfl

/-- Round-trip for a split whose start and end sentinels lie in two
different deltas. -/
theorem roundtrip_case1 {J : Type} (parse : List Char → Option J)
    (preD : List (List Char)) (a b : List Char) (midD : List (List Char))
    (c d : List Char) (postD : List (List Char)) (pre js post : List Char)
    (v : J)
    (hpre : pre = preD.flatten ++ a)
    (hjs : js = b ++ midD.flatten ++ c)
    (hpost : post = d ++ postD.flatten)
    (hS : findSub startMarker (pre ++ startMarker) = some pre.length)
    (hE : findSub endMarker (js ++ endMarker) = some js.length)
    (hSpost : containsSub startMarker post = false)
    (hEpre : containsSub endMarker pre = false)
    (hEpost : containsSub endMarker post = false)
    (hparse : parse js = some v) :
    ∃ evs1 evs2,
      reassemble parse (preD ++ [a ++ (startMarker ++ b)] ++ midD ++
        [c ++ (endMarker ++ d)] ++ postD) = evs1 ++ REv.chart v :: evs2 ∧
      chartsOf evs1 = [] ∧ chartsOf evs2 = [] ∧
      (chunksOf evs1).flatten = pre ∧ (chunksOf evs2).flatten = post ∧
      ∀ cc ∈ chunksOf evs1 ++ chunksOf evs2,
        containsSub startMarker cc = false ∧
        containsSub endMarker cc = false := by
  obtain ⟨P, csA, heqA, hfindPA, hpreflat, hmemA, hPaS, hPaE⟩ :=
    reassemble_head parse preD a pre hpre hS hEpre
  have hEjs : containsSub endMarker js = false :=
    not_containsSub_of_findSub_append endMarker_ne_nil hE
  have hEb : containsSub endMarker b = false := by
    cases hx : containsSub endMarker b
    · rfl
    · have := containsSub_mono_right c
        (containsSub_mono_right midD.flatten hx)
      rw [← hjs, hEjs] at this
      cases this
  have hfindSd : findSub startMarker ((P ++ a) ++ (startMarker ++ b)) =
      some (P ++ a).length := by
    have := findSub_append_right b startMarker_ne_nil hfindPA
    rwa [List.append_assoc] at this
  have step1 := processDelta_startDelta parse P a b hfindSd hEb
  have hmidE : containsSub endMarker midD.flatten = false := by
    cases hx : containsSub endMarker midD.flatten
    · rfl
    · have h1 := containsSub_mono_right c (containsSub_mono_left b hx)
      rw [← hjs, hEjs] at h1
      cases h1
  have midEq := runDeltas_inBlock parse midD b hmidE
  have hjsapp : js ++ endMarker = (b ++ midD.flatten) ++ (c ++ endMarker) := by
    rw [hjs, List.append_assoc]
  have hjslen : js.length = (b ++ midD.flatten).length + c.length := by
    rw [hjs]
    simp [List.length_append]
    omega
  have hfindEd : findSub endMarker (c ++ (endMarker ++ d)) = some c.length := by
    rw [hjsapp, hjslen] at hE
    have := findSub_append_right d endMarker_ne_nil (findSub_drop_head hE)
    rwa [List.append_assoc] at this
  have hparse2 : parse ((b ++ midD.flatten) ++ c) = some v := by
    rw [← hjs]
    exact hparse
  have endEq := processDelta_endDelta parse (b ++ midD.flatten) c d v
    hfindEd hparse2
  obtain ⟨evsT, hevsT, hchT, hflT, hmT⟩ :=
    roundtrip_after_block parse d postD post hpost hSpost hEpost
  refine ⟨csA.map REv.chunk ++
    (if P ++ a ≠ [] then [REv.chunk (P ++ a)] else []), evsT, ?_, ?_, ?_,
    ?_, hflT, ?_⟩
  · rw [show preD ++ [a ++ (startMarker ++ b)] ++ midD ++
        [c ++ (endMarker ++ d)] ++ postD =
        preD ++ ((a ++ (startMarker ++ b)) ::
          (midD ++ ((c ++ (endMarker ++ d)) :: postD))) by simp,
      reassemble_eq,
      runDeltas_append parse preD _ initRState, heqA, runDeltas_cons,
      step1]
    rw [show ((⟨[], true, b⟩ : RState),
        if P ++ a ≠ [] then [REv.chunk (J := J) (P ++ a)] else []).1 =
        (⟨[], true, b⟩ : RState) from rfl]
    rw [runDeltas_append parse midD _ _, midEq, runDeltas_cons, endEq]
    rw [← hevsT]
    simp [List.append_assoc]
  · rw [chartsOf_append, chartsOf_map_chunk]
    cases hq : P ++ a <;> simp [chartsOf]
  · exact hchT
  · rw [chunksOf_append, chunksOf_map_chunk, List.flatten_append]
    have : (chunksOf (if P ++ a ≠ [] then [REv.chunk (J := J) (P ++ a)]
        else [])).flatten = P ++ a := by
      cases hq : P ++ a <;> simp [chunksOf]
    rw [this, hpreflat]
  · intro cc hcc
    rw [List.mem_append] at hcc
    rcases hcc with hcc | hcc
    · rw [chunksOf_append, chunksOf_map_chunk, List.mem_append] at hcc
      rcases hcc with hcc | hcc
      · exact hmemA cc hcc
      · have : cc = P ++ a := by
          cases hq : P ++ a <;> rw [hq] at hcc <;> simp [chunksOf] at hcc
          · exact hcc
        rw [this]
        exact ⟨hPaS, hPaE⟩
    · exact hmT cc hcc

/-- Round-trip for a split whose whole sentinel-delimited block lies in a
single delta. -/
theorem roundtrip_case2 {J : Type} (parse : List Char → Option J)
    (preD : List (List Char)) (a : List Char) (d : List Char)
    (postD : List (List Char)) (pre js post : List Char) (v : J)
    (hpre : pre = preD.flatten ++ a)
    (hpost : post = d ++ postD.flatten)
    (hS : findSub startMarker (pre ++ startMarker) = some pre.length)
    (hE : findSub endMarker (js ++ endMarker) = some js.length)
    (hSpost : containsSub startMarker post = false)
    (hEpre : containsSub endMarker pre = false)
    (hEpost : containsSub endMarker post = false)
    (hparse : parse js = some v) :
    ∃ evs1 evs2,
      reassemble parse (preD ++
        [a ++ (startMarker ++ (js ++ (endMarker ++ d)))] ++ postD) =
        evs1 ++ REv.chart v :: evs2 ∧
      chartsOf evs1 = [] ∧ chartsOf evs2 = [] ∧
      (chunksOf evs1).flatten = pre ∧ (chunksOf evs2).flatten = post ∧
      ∀ cc ∈ chunksOf evs1 ++ chunksOf evs2,
        containsSub startMarker cc = false ∧
        containsSub endMarker cc = false := by
  obtain ⟨P, csA, heqA, hfindPA, hpreflat, hmemA, hPaS, hPaE⟩ :=
    reassemble_head parse preD a pre hpre hS hEpre
  have hfindSd : findSub startMarker
      ((P ++ a) ++ (startMarker ++ (js ++ (endMarker ++ d)))) =
      some (P ++ a).length := by
    have := findSub_append_right (js ++ (endMarker ++ d)) startMarker_ne_nil
      hfindPA
    rwa [List.append_assoc] at this
  have hfindEd : findSub endMarker (js ++ (endMarker ++ d)) =
      some js.length := by
    have := findSub_append_right d endMarker_ne_nil hE
    rwa [List.append_assoc] at this
  have blockEq := processDelta_wholeBlock parse P a js d v hfindSd hfindEd
    hparse
  obtain ⟨evsT, hevsT, hchT, hflT, hmT⟩ :=
    roundtrip_after_block parse d postD post hpost hSpost hEpost
  refine ⟨csA.map REv.chunk ++
    (if P ++ a ≠ [] then [REv.chunk (P ++ a)] else []), evsT, ?_, ?_, ?_,
    ?_, hflT, ?_⟩
  · rw [show preD ++ [a ++ (startMarker ++ (js ++ (endMarker ++ d)))] ++
        postD = preD ++
          ((a ++ (startMarker ++ (js ++ (endMarker ++ d)))) :: postD)
        by simp,
      reassemble_eq, runDeltas_append parse preD _ initRState, heqA,
      runDeltas_cons, blockEq, ← hevsT]
    simp [List.append_assoc]
  · rw [chartsOf_append, chartsOf_map_chunk]
    cases hq : P ++ a <;> simp [chartsOf]
  · exact hchT
  · rw [chunksOf_append, chunksOf_map_chunk, List.flatten_append]
    have : (chunksOf (if P ++ a ≠ [] then [REv.chunk (J := J) (P ++ a)]
        else [])).flatten = P ++ a := by
      cases hq : P ++ a <;> simp [chunksOf]
    rw [this, hpreflat]
  · intro cc hcc
    rw [List.mem_append] at hcc
    rcases hcc with hcc | hcc
    · rw [chunksOf_append, chunksOf_map_chunk, List.mem_append] at hcc
      rcases hcc with hcc | hcc
      · exact hmemA cc hcc
      · have : cc = P ++ a := by
          cases hq : P ++ a <;> rw [hq] at hcc <;> simp [chunksOf] at hcc
          · exact hcc
        rw [this]
        exact ⟨hPaS, hPaE⟩
    · exact hmT cc hcc

/-- C1 (corrected).  For a delta stream containing exactly one structured
block (start sentinel, valid JSON, end sentinel) whose sentinels each lie
entirely within a single delta, `stream_openrouter` emits exactly one
`chart_config` event whose value is the JSON parse of the block interior,
and every character outside the block is emitted, in order and verbatim,
as `chunk` events none of which contains sentinel text.  The hypotheses
state that the start sentinel first occurs at the end of `pre`, the end
sentinel first occurs at the end of the interior `js`, and no sentinel
occurs in the outside text.  (The original claim, quantifying over
arbitrary splits, is refuted by `c1_end_split_counterexample`.) -/
theorem c1_reassembler_roundtrip {J : Type} (parse : List Char → Option J)
    (deltas : List (List Char)) (pre js post : List Char) (v : J)
    (hsplit : SentinelSplit deltas pre js post)
    (hS : findSub startMarker (pre ++ startMarker) = some pre.length)
    (hE : findSub endMarker (js ++ endMarker) = some js.length)
    (hSpost : containsSub startMarker post = false)
    (hEpre : containsSub endMarker pre = false)
    (hEpost : containsSub endMarker post = false)
    (hparse : parse js = some v) :
    ∃ evs1 evs2,
      reassemble parse deltas = evs1 ++ REv.chart v :: evs2 ∧
      chartsOf evs1 = [] ∧ chartsOf evs2 = [] ∧
      (chunksOf evs1).flatten = pre ∧ (chunksOf evs2).flatten = post ∧
      ∀ cc ∈ chunksOf evs1 ++ chunksOf evs2,
        containsSub startMarker cc = false ∧
        containsSub endMarker cc = false := by
  rcases hsplit with ⟨preD, a, b, midD, c, d, postD, hdel, hpre, hjs, hpost⟩
    | ⟨preD, a, d, postD, hdel, hpre, hpost⟩
  · rw [hdel]
    exact roundtrip_case1 parse preD a b midD c d postD pre js post v hpre
      hjs hpost hS hE hSpost hEpre hEpost hparse
  · rw [hdel]
    exact roundtrip_case2 parse preD a d postD pre js post v hpre hpost hS
      hE hSpost hEpre hEpost hparse

/-- C1 counterexample.  A stream whose text is exactly one structured
block with valid JSON (`[[CHARTJS_CONFIG_START]]{}[[CHARTJS_CONFIG_END]]`)
but whose end sentinel is split across the two deltas: the in-block code
checks the end sentinel against the newest delta only, so the block is
never closed; no `chart_config` event is emitted (the claim requires
exactly one), and no text is emitted at all. -/
theorem c1_end_split_counterexample :
    (["\x7b\x7d".data ++ "[[CHARTJS_".data, "CONFIG_END]]".data].flatten =
      "\x7b\x7d".data ++ endMarker) ∧
    ((fun s => if s = "\x7b\x7d".data then some 7 else none) "\x7b\x7d".data
      = some (7 : Nat)) ∧
    reassemble (fun s => if s = "\x7b\x7d".data then some 7 else none)
      [startMarker ++ "\x7b\x7d".data ++ "[[CHARTJS_".data,
       "CONFIG_END]]".data] = ([] : List (REv Nat)) := by
  refine ⟨by decide, by decide, by decide⟩

/-- Witness for `c1_reassembler_roundtrip` at a concrete stream: pre-text
`"A"`, interior `"\x7b\x7d"`, post-text `"B"`, the block split over two
deltas with each sentinel whole in one delta. -/
theorem c1_reassembler_roundtrip_witness :
    ∃ evs1 evs2,
      reassemble (fun s => if s = "\x7b\x7d".data then some 7 else none)
        ["A".data ++ (startMarker ++ "\x7b".data),
         "\x7d".data ++ (endMarker ++ "B".data)] =
        evs1 ++ REv.chart 7 :: evs2 ∧
      chartsOf evs1 = [] ∧ chartsOf evs2 = [] ∧
      (chunksOf evs1).flatten = "A".data ∧
      (chunksOf evs2).flatten = "B".data ∧
      ∀ cc ∈ chunksOf evs1 ++ chunksOf evs2,
        containsSub startMarker cc = false ∧
        containsSub endMarker cc = false := by
  exact c1_reassembler_roundtrip
    (fun s => if s = "\x7b\x7d".data then some 7 else none)
    ["A".data ++ (startMarker ++ "\x7b".data),
     "\x7d".data ++ (endMarker ++ "B".data)]
    "A".data "\x7b\x7d".data "B".data 7
    (Or.inl ⟨[], "A".data, "\x7b".data, [], "\x7d".data, "B".data, [],
      by decide, by decide, by decide, by decide⟩)
    (by decide) (by decide) (by decide) (by decide) (by decide) (by decide)

/-! ## C10: `calculate_math` input gating -/

/-- C10 (corrected).  `calculate_math` rejects, without evaluating, every
expression containing a character outside the regex class
`[0-9+\-*/().\s]` — digits, the four operators, parentheses, the decimal
point and whitespace.  The rejection is independent of the evaluator, so
nothing outside this class is ever evaluated.  (The claim named a smaller
class without `.` and whitespace; `c10_dot_whitespace_counterexample`
refutes that version.) -/
theorem c10_charset_guard (evalFn : String → Except String Int)
    (expr : String) (c : Char) (hc : c ∈ expr.data)
    (hbad : allowedMathChar c = false) :
    calculate_math evalFn expr = CalcResult.err invalidExprMsg := by
  unfold calculate_math
  have hall : expr.data.all allowedMathChar = false := by
    rw [List.all_eq_false]
    exact ⟨c, hc, by simp [hbad]⟩
  simp [hall]

/-- Witness for `c10_charset_guard`: a semicolon is rejected whatever the
evaluator would return. -/
theorem c10_charset_guard_witness :
    calculate_math (fun _ => Except.ok 0) "1;2" = CalcResult.err
      invalidExprMsg :=
  c10_charset_guard (fun _ => Except.ok 0) "1;2" ';' (by decide) (by decide)

/-- C10 counterexample.  `" 1+1"` contains a space, which is outside the
character set named by the claim (digits, `+ - * /`, parentheses), yet
`calculate_math` evaluates it and returns a result envelope instead of an
error. -/
theorem c10_dot_whitespace_counterexample :
    calculate_math (fun _ => Except.ok 2) " 1+1" =
      CalcResult.ok 2 " 1+1" ∧
    " 1+1".data.all claimMathChar = false ∧
    calculate_math (fun _ => Except.ok 1) "1.5" = CalcResult.ok 1 "1.5" ∧
    "1.5".data.all claimMathChar = false := by
  refine ⟨by decide, by decide, by decide, by decide⟩

/-! ## C4: cancellation of terminal tasks -/

/-- C4 (corrected).  `cancel_task` reports a conflict, changing nothing,
only for the terminal statuses `completed` and `failed`; a request against
an already-`cancelled` task is not a conflict — it is accepted and its
only effect is (re)setting `cancelRequested`, leaving status, chunks,
result and timestamps unchanged. -/
theorem c4_cancel_terminal (t : Task) :
    ((t.status = TStatus.completed ∨ t.status = TStatus.failed) →
      cancel_task (some t) =
        (CancelResp.conflict "Task already completed", some t)) ∧
    (t.status = TStatus.cancelled →
      cancel_task (some t) =
        (CancelResp.accepted, some { t with cancelRequested := true })) := by
  constructor
  · rintro (h | h) <;> simp [cancel_task, h]
  · intro h
    simp [cancel_task, h]

/-- Witness for `c4_cancel_terminal` at concrete completed and cancelled
tasks. -/
theorem c4_cancel_terminal_witness :
    (cancel_task (some demoCompleted) =
      (CancelResp.conflict "Task already completed", some demoCompleted)) ∧
    (cancel_task (some demoCancelled) =
      (CancelResp.accepted,
        some { demoCancelled with cancelRequested := true })) :=
  ⟨(c4_cancel_terminal _).1 (Or.inl rfl), (c4_cancel_terminal _).2 rfl⟩

/-- C4 counterexample.  A cancellation request against a task whose status
is the terminal `cancelled` is not reported as a conflict: the endpoint
accepts it (the conflict guard on app.py line 2212 checks only
`COMPLETED` and `FAILED`). -/
theorem c4_cancelled_not_conflict_counterexample :
    demoCancelled.status = TStatus.cancelled ∧
    (cancel_task (some demoCancelled)).1 = CancelResp.accepted := by
  exact ⟨rfl, rfl⟩

/-! ## C6: task polling projection -/

/-- C6 (corrected).  `get_task_status` attaches the `chunks` and `result`
fields exactly for the statuses `completed` and `failed`; `cancelled`
tasks — although terminal — are returned like non-terminal ones, without
those fields. -/
theorem c6_status_extras (t : Task) :
    ((t.status = TStatus.completed ∨ t.status = TStatus.failed) →
      ∃ r, get_task_status (some t) = some r ∧
        r.chunksField = some t.chunks ∧ r.resultField = some t.result) ∧
    ((t.status = TStatus.queued ∨ t.status = TStatus.in_progress ∨
        t.status = TStatus.cancelled) →
      ∃ r, get_task_status (some t) = some r ∧
        r.chunksField = none ∧ r.resultField = none) := by
  constructor
  · rintro (h | h) <;>
      exact ⟨_, rfl, by simp [get_task_status, h], by simp [get_task_status, h]⟩
  · rintro (h | h | h) <;>
      exact ⟨_, rfl, by simp [get_task_status, h], by simp [get_task_status, h]⟩

/-- Witness for `c6_status_extras` at concrete completed and cancelled
tasks. -/
theorem c6_status_extras_witness :
    (∃ r, get_task_status (some demoCompleted) = some r ∧
      r.chunksField = some demoCompleted.chunks ∧
      r.resultField = some demoCompleted.result) ∧
    (∃ r, get_task_status (some demoCancelled) = some r ∧
      r.chunksField = none ∧ r.resultField = none) :=
  ⟨(c6_status_extras _).1 (Or.inl rfl),
    (c6_status_extras _).2 (Or.inr (Or.inr rfl))⟩

/-- C6 counterexample.  Polling a `cancelled` task — terminal per the
claim — omits the `chunks` and `result` fields (the guard on app.py line
2159 lists only `COMPLETED` and `FAILED`). -/
theorem c6_cancelled_no_extras_counterexample :
    demoCancelled.status = TStatus.cancelled ∧
    demoCancelled.chunks ≠ [] ∧
    (get_task_status (some demoCancelled)).map StatusResp.chunksField =
      some none ∧
    (get_task_status (some demoCancelled)).map StatusResp.resultField =
      some none := by
  refine ⟨rfl, by decide, rfl, rfl⟩

/-! ## C2: dispatcher containment -/

/-- C2 (corrected).  When the JSON argument string parses, the dispatcher
always returns a tool-result message and never propagates an exception:
an unknown tool name yields an `Unknown tool` error envelope, and an
exception raised by the invoked callable (including a `TypeError` from
mismatched keyword arguments) is caught and converted into a
`Tool execution failed` envelope.  (A malformed JSON argument string,
however, raises out of the dispatcher:
`c2_malformed_args_counterexample`.) -/
theorem c2_dispatcher_contained {Args V : Type}
    (argParse : String → Option Args)
    (toolImpl : String → Args → Except String V) (tc : ToolCallRec)
    (args : Args) (hargs : argParse tc.arguments = some args) :
    ∃ content,
      get_tool_response_single argParse toolImpl tc =
        Except.ok (Msg.tool tc.id tc.name content) ∧
      (tc.name ∉ toolNames →
        content = ToolContent.errEnvelope ("Unknown tool: " ++ tc.name)) ∧
      (∀ e, tc.name ∈ toolNames → toolImpl tc.name args = Except.error e →
        content = ToolContent.errEnvelope ("Tool execution failed: " ++ e)) := by
  unfold get_tool_response_single
  rw [hargs]
  by_cases hmem : tc.name ∈ toolNames
  · cases himp : toolImpl tc.name args with
    | ok v =>
      refine ⟨ToolContent.value v, by simp [hmem, himp], ?_, ?_⟩
      · intro h
        exact absurd hmem h
      · intro e _ he
        simp at he
    | error e =>
      refine ⟨ToolContent.errEnvelope ("Tool execution failed: " ++ e),
        by simp [hmem, himp], ?_, ?_⟩
      · intro h
        exact absurd hmem h
      · intro e2 _ he
        cases he
        rfl
  · refine ⟨ToolContent.errEnvelope ("Unknown tool: " ++ tc.name),
      by simp [hmem], fun _ => rfl, ?_⟩
    intro e hmem2 _
    exact absurd hmem2 hmem

/-- Witness for `c2_dispatcher_contained`: a callable that always raises
is converted into an error envelope, and an unknown tool name likewise. -/
theorem c2_dispatcher_contained_witness :
    (∃ content,
      get_tool_response_single (fun _ => some ())
        (fun _ (_ : Unit) => (Except.error "boom" : Except String Unit))
        ⟨"id1", "get_current_time", "\x7b\x7d"⟩ =
        Except.ok (Msg.tool "id1" "get_current_time" content) ∧
      content = ToolContent.errEnvelope "Tool execution failed: boom") ∧
    (∃ content,
      get_tool_response_single (fun _ => some ())
        (fun _ (_ : Unit) => (Except.ok () : Except String Unit))
        ⟨"id2", "no_such_tool", "\x7b\x7d"⟩ =
        Except.ok (Msg.tool "id2" "no_such_tool" content) ∧
      content = ToolContent.errEnvelope "Unknown tool: no_such_tool") := by
  constructor
  · obtain ⟨content, heq, _, herr⟩ := c2_dispatcher_contained
      (fun _ => some ())
      (fun _ (_ : Unit) => (Except.error "boom" : Except String Unit))
      ⟨"id1", "get_current_time", "\x7b\x7d"⟩ () rfl
    exact ⟨content, heq, herr "boom" (by decide) rfl⟩
  · obtain ⟨content, heq, hunk, _⟩ := c2_dispatcher_contained
      (fun _ => some ())
      (fun _ (_ : Unit) => (Except.ok () : Except String Unit))
      ⟨"id2", "no_such_tool", "\x7b\x7d"⟩ () rfl
    exact ⟨content, heq, hunk (by decide)⟩

/-- C2 counterexample.  A tool call whose JSON argument string is
malformed makes `json.loads` (line 1592, outside the `try` block) raise,
and the exception propagates out of `get_tool_response_single` instead of
being converted into an error envelope. -/
theorem c2_malformed_args_counterexample :
    get_tool_response_single (fun _ => (none : Option Unit))
      (fun _ (_ : Unit) => (Except.ok () : Except String Unit))
      ⟨"id1", "get_current_time", "not json"⟩ =
      Except.error jsonDecodeErrorMsg := by
  rfl

/-! ## C7: task status stream termination -/

/-- C7 (code bug).  A status stream opened on a cancelled task (its
`cancel_requested` flag is necessarily set) yields a single
`status: cancelled` update and closes without any `end_of_stream` event,
for any remaining fuel and any read position: the `cancel_requested` check
at the top of the loop (app.py line 2181) breaks before the terminal-status
branch (line 2195), whose `CANCELLED` arm — which would emit
`end_of_stream` — is unreachable for cancelled tasks. -/
theorem c7_cancelled_stream_no_eos (fuel idx lastIdx : Nat) :
    streamTaskResults (fun _ => demoCancelled) (fuel + 1) idx lastIdx =
      [SEv.statusCancelled] := by
  simp [streamTaskResults, demoCancelled]

/-! ## Background worker lemmas -/

theorem evsOf_append (xs ys : List BgItem) :
    evsOf (xs ++ ys) = evsOf xs ++ evsOf ys := by
  induction xs with
  | nil => rfl
  | cons x xs ih => cases x <;> simp [evsOf, ih]

theorem bgRun_exhaust (flag : Nat → Bool) (hflag : ∀ j, flag j = false) :
    ∀ (items : List BgItem) (i : Nat) (w : BgWork),
      (∀ e ∈ evsOf items, e.errMsg = none ∧ e.isEnd = false) →
      bgRun flag items i w =
        { status := TStatus.completed, progress := 100,
          chunks := w.task.chunks ++ evsOf items, result := w.task.result,
          error := w.task.error, startedAt := w.task.startedAt,
          completedAt := true,
          cancelRequested := w.task.cancelRequested }
  | [], i, w, _ => by
    simp [bgRun, evsOf]
  | it :: rest, i, w, hok => by
    cases it with
    | notData =>
      rw [bgRun]
      simp only [hflag i, Bool.false_eq_true, if_false]
      rw [bgRun_exhaust flag hflag rest (i + 1) w
        (fun e he => hok e (by simpa [evsOf] using he))]
      simp [evsOf]
    | badJson =>
      rw [bgRun]
      simp only [hflag i, Bool.false_eq_true, if_false]
      rw [bgRun_exhaust flag hflag rest (i + 1) w
        (fun e he => hok e (by simpa [evsOf] using he))]
      simp [evsOf]
    | ev e =>
      have he := hok e (by simp [evsOf])
      rw [bgRun]
      simp only [hflag i, Bool.false_eq_true, if_false, he.2, he.1]
      rw [bgRun_exhaust flag hflag rest (i + 1) _
        (fun e2 he2 => hok e2 (by simp [evsOf]; exact Or.inr he2))]
      simp [evsOf, List.append_assoc]

theorem bgRun_first_end (flag : Nat → Bool) (hflag : ∀ j, flag j = false) :
    ∀ (xs : List BgItem) (e : BgEvent) (ys : List BgItem) (i : Nat)
      (w : BgWork),
      (∀ e2 ∈ evsOf xs, e2.errMsg = none ∧ e2.isEnd = false) →
      e.isEnd = true →
      bgRun flag (xs ++ BgItem.ev e :: ys) i w =
        { status := TStatus.completed, progress := 100,
          chunks := w.task.chunks ++ evsOf xs ++ [e],
          result := some ⟨w.chunkCount + (evsOf xs).length + 1,
            (w.totalContent ++ contentOf (evsOf xs) ++
              e.chunkText.getD "").length,
            summaryOf (w.totalContent ++ contentOf (evsOf xs) ++
              e.chunkText.getD "")⟩,
          error := w.task.error, startedAt := w.task.startedAt,
          completedAt := true,
          cancelRequested := w.task.cancelRequested }
  | [], e, ys, i, w, _, hend => by
    rw [List.nil_append, bgRun]
    simp [hflag i, hend, evsOf, contentOf]
  | x :: xs, e, ys, i, w, hok, hend => by
    cases x with
    | notData =>
      rw [List.cons_append, bgRun]
      simp only [hflag i, Bool.false_eq_true, if_false]
      rw [bgRun_first_end flag hflag xs e ys (i + 1) w
        (fun e2 he2 => hok e2 (by simpa [evsOf] using he2)) hend]
      simp [evsOf]
    | badJson =>
      rw [List.cons_append, bgRun]
      simp only [hflag i, Bool.false_eq_true, if_false]
      rw [bgRun_first_end flag hflag xs e ys (i + 1) w
        (fun e2 he2 => hok e2 (by simpa [evsOf] using he2)) hend]
      simp [evsOf]
    | ev e2 =>
      have he2 := hok e2 (by simp [evsOf])
      rw [List.cons_append, bgRun]
      simp only [hflag i, Bool.false_eq_true, if_false, he2.1, he2.2]
      rw [bgRun_first_end flag hflag xs e ys (i + 1) _
        (fun e3 he3 => hok e3 (by simp [evsOf]; exact Or.inr he3)) hend]
      simp [evsOf, contentOf, List.append_assoc, String.append_assoc]
      omega

/-- Splitting a stream at its first `end_of_stream` event, if any. -/
theorem exists_first_end (items : List BgItem) :
    (∀ e ∈ evsOf items, e.isEnd = false) ∨
    ∃ xs e ys, items = xs ++ BgItem.ev e :: ys ∧ e.isEnd = true ∧
      ∀ e2 ∈ evsOf xs, e2.isEnd = false := by
  induction items with
  | nil => exact Or.inl (by simp [evsOf])
  | cons it rest ih =>
    cases hit : it with
    | ev e =>
      cases hend : e.isEnd with
      | true =>
        exact Or.inr ⟨[], e, rest, by simp, hend, by simp [evsOf]⟩
      | false =>
        rcases ih with h | ⟨xs, e2, ys, hdec, he2, hxs⟩
        · refine Or.inl ?_
          intro e3 he3
          rcases (by simpa [evsOf] using he3 :
            e3 = e ∨ e3 ∈ evsOf rest) with rfl | h3
          · exact hend
          · exact h e3 h3
        · refine Or.inr ⟨BgItem.ev e :: xs, e2, ys, by rw [hdec]; rfl,
            he2, ?_⟩
          intro e3 he3
          rcases (by simpa [evsOf] using he3 :
            e3 = e ∨ e3 ∈ evsOf xs) with rfl | h3
          · exact hend
          · exact hxs e3 h3
    | notData =>
      rcases ih with h | ⟨xs, e2, ys, hdec, he2, hxs⟩
      · exact Or.inl (by simpa [evsOf] using h)
      · exact Or.inr ⟨BgItem.notData :: xs, e2, ys, by rw [hdec]; rfl, he2,
          by simpa [evsOf] using hxs⟩
    | badJson =>
      rcases ih with h | ⟨xs, e2, ys, hdec, he2, hxs⟩
      · exact Or.inl (by simpa [evsOf] using h)
      · exact Or.inr ⟨BgItem.badJson :: xs, e2, ys, by rw [hdec]; rfl, he2,
          by simpa [evsOf] using hxs⟩

/-! ## C5: worker completion -/

/-- C5 (corrected).  When the stream carries no error events and no
cancellation is requested, the worker always ends the task `completed`
with `progress` forced to 100 and `completedAt` set.  `result` is
populated from the accumulated output — chunk count, content length and
truncated summary — exactly when an explicit `end_of_stream` event
arrives; when the stream is exhausted without one, the task is completed
but `result` is left `None` (app.py lines 198-201 set only status,
timestamp and progress). -/
theorem c5_worker_completion (flag : Nat → Bool) (items : List BgItem)
    (hflag : ∀ j, flag j = false)
    (herr : ∀ e ∈ evsOf items, e.errMsg = none) :
    (stream_openrouter_background flag items).status = TStatus.completed ∧
    (stream_openrouter_background flag items).progress = 100 ∧
    (stream_openrouter_background flag items).completedAt = true ∧
    ((∀ e ∈ evsOf items, e.isEnd = false) →
      (stream_openrouter_background flag items).result = none) ∧
    (∀ xs e ys, items = xs ++ BgItem.ev e :: ys → e.isEnd = true →
      (∀ e2 ∈ evsOf xs, e2.isEnd = false) →
      (stream_openrouter_background flag items).result =
        some ⟨(evsOf xs).length + 1,
          (contentOf (evsOf xs) ++ e.chunkText.getD "").length,
          summaryOf (contentOf (evsOf xs) ++ e.chunkText.getD "")⟩) := by
  have hcase5 : ∀ xs e ys, items = xs ++ BgItem.ev e :: ys →
      e.isEnd = true → (∀ e2 ∈ evsOf xs, e2.isEnd = false) →
      (stream_openrouter_background flag items).result =
        some ⟨(evsOf xs).length + 1,
          (contentOf (evsOf xs) ++ e.chunkText.getD "").length,
          summaryOf (contentOf (evsOf xs) ++ e.chunkText.getD "")⟩ := by
    intro xs e ys hdec hend hxs
    have hxsfull : ∀ e2 ∈ evsOf xs, e2.errMsg = none ∧ e2.isEnd = false := by
      intro e2 he2
      refine ⟨herr e2 ?_, hxs e2 he2⟩
      rw [hdec, evsOf_append]
      exact List.mem_append_left _ he2
    rw [stream_openrouter_background, hdec,
      bgRun_first_end flag hflag xs e ys 0 _ hxsfull hend]
    simp
  rcases exists_first_end items with hno | ⟨xs, e, ys, hdec, hend, hxs⟩
  · refine ⟨?_, ?_, ?_, fun _ => ?_, hcase5⟩ <;>
      · rw [stream_openrouter_background,
          bgRun_exhaust flag hflag items 0 _
            (fun e he => ⟨herr e he, hno e he⟩)]
        try simp [newTask]
  · have hxsfull : ∀ e2 ∈ evsOf xs, e2.errMsg = none ∧ e2.isEnd = false := by
      intro e2 he2
      refine ⟨herr e2 ?_, hxs e2 he2⟩
      rw [hdec, evsOf_append]
      exact List.mem_append_left _ he2
    refine ⟨?_, ?_, ?_, ?_, hcase5⟩
    · rw [stream_openrouter_background, hdec,
        bgRun_first_end flag hflag xs e ys 0 _ hxsfull hend]
    · rw [stream_openrouter_background, hdec,
        bgRun_first_end flag hflag xs e ys 0 _ hxsfull hend]
    · rw [stream_openrouter_background, hdec,
        bgRun_first_end flag hflag xs e ys 0 _ hxsfull hend]
    · intro hno2
      rw [hdec, evsOf_append] at hno2
      have := hno2 e (by simp [evsOf])
      rw [hend] at this
      cases this

/-- Witness for `c5_worker_completion`: the spec example — one text delta
`"4"` followed by an explicit `end_of_stream` — completes with
`result.summary = "4"`; and a stream exhausted after one text delta
without `end_of_stream` completes with `result` left `None`. -/
theorem c5_worker_completion_witness :
    ((stream_openrouter_background (fun _ => false)
        [BgItem.ev ⟨some "4", false, none⟩, BgItem.ev ⟨none, true, none⟩]
      ).status = TStatus.completed ∧
     (stream_openrouter_background (fun _ => false)
        [BgItem.ev ⟨some "4", false, none⟩, BgItem.ev ⟨none, true, none⟩]
      ).result = some ⟨2, 1, "4"⟩) ∧
    (stream_openrouter_background (fun _ => false)
        [BgItem.ev ⟨some "4", false, none⟩]).result = none := by
  constructor
  · have h := c5_worker_completion (fun _ => false)
      [BgItem.ev ⟨some "4", false, none⟩, BgItem.ev ⟨none, true, none⟩]
      (fun _ => rfl) (by decide)
    refine ⟨h.1, ?_⟩
    have h5 := h.2.2.2.2 [BgItem.ev ⟨some "4", false, none⟩]
      ⟨none, true, none⟩ [] rfl rfl (by decide)
    rw [h5]
    rfl
  · have h := c5_worker_completion (fun _ => false)
      [BgItem.ev ⟨some "4", false, none⟩] (fun _ => rfl) (by decide)
    exact h.2.2.2.1 (by decide)

/-- C5 counterexample.  A provider stream that is exhausted without an
explicit `end_of_stream` event completes the task but leaves `result`
unset (`None`), although the claim says `result` is populated from the
accumulated output in that case too. -/
theorem c5_exhaustion_no_result_counterexample :
    (stream_openrouter_background (fun _ => false)
        [BgItem.ev ⟨some "4", false, none⟩]).status = TStatus.completed ∧
    (stream_openrouter_background (fun _ => false)
        [BgItem.ev ⟨some "4", false, none⟩]).result = none := by
  exact ⟨rfl, rfl⟩

/-! ## C8: cooperative cancellation -/

theorem bgRun_cancel (flag : Nat → Bool) :
    ∀ (items : List BgItem) (i i0 : Nat) (w : BgWork),
      i < items.length →
      (∀ j, j < i → flag (i0 + j) = false) → flag (i0 + i) = true →
      (∀ it ∈ items.take i, nonTerminalItem it) →
      (bgRun flag items i0 w).status = TStatus.cancelled ∧
      (bgRun flag items i0 w).completedAt = true ∧
      (bgRun flag items i0 w).chunks =
        w.task.chunks ++ evsOf (items.take i) ∧
      (bgRun flag items i0 w).result = w.task.result
  | [], i, i0, w, hlt, _, _, _ => absurd hlt (by simp)
  | it :: rest, 0, i0, w, _, _, hat, _ => by
    have hat0 : flag i0 = true := by simpa using hat
    simp only [bgRun]
    simp [hat0, evsOf]
  | it :: rest, k + 1, i0, w, hlt, hbef, hat, hnt => by
    have h0 : flag i0 = false := by simpa using hbef 0 (by omega)
    have hbef2 : ∀ j, j < k → flag (i0 + 1 + j) = false := by
      intro j hj
      have := hbef (j + 1) (by omega)
      simpa [Nat.add_assoc, Nat.add_comm 1 j] using this
    have hat2 : flag (i0 + 1 + k) = true := by
      have : i0 + 1 + k = i0 + (k + 1) := by omega
      rw [this]
      exact hat
    cases it with
    | notData =>
      rw [bgRun]
      simp only [h0, Bool.false_eq_true, if_false]
      have := bgRun_cancel flag rest k (i0 + 1) w (by simpa using hlt)
        hbef2 hat2 (fun it2 hit2 => hnt it2 (by simp [hit2]))
      simpa [evsOf] using this
    | badJson =>
      rw [bgRun]
      simp only [h0, Bool.false_eq_true, if_false]
      have := bgRun_cancel flag rest k (i0 + 1) w (by simpa using hlt)
        hbef2 hat2 (fun it2 hit2 => hnt it2 (by simp [hit2]))
      simpa [evsOf] using this
    | ev e =>
      have hnte : nonTerminalItem (BgItem.ev e) := hnt _ (by simp)
      have hend : e.isEnd = false := hnte.1
      have herr : e.errMsg = none := hnte.2
      rw [bgRun]
      simp only [h0, Bool.false_eq_true, if_false, hend, herr]
      have := bgRun_cancel flag rest k (i0 + 1)
        ⟨{ w.task with
             chunks := w.task.chunks ++ [e],
             progress := progressUpdate (w.chunkCount + 1) },
         w.chunkCount + 1, w.totalContent ++ e.chunkText.getD ""⟩
        (by simpa using hlt)
        hbef2 hat2 (fun it2 hit2 => hnt it2 (by simp [hit2]))
      simpa [evsOf, List.append_assoc] using this

/-- C8 (confirmed).  If the cancellation flag is first observed set at the
checkpoint before the `i`-th received stream item — the task still being
in progress, no earlier item having completed or failed it — the worker
cancels the task at that very checkpoint: status becomes `cancelled`,
`completedAt` is set, no further item is consumed, and the chunks already
appended are retained unchanged (`result` stays unset). -/
theorem c8_cooperative_cancellation (flag : Nat → Bool)
    (items : List BgItem) (i : Nat) (hlt : i < items.length)
    (hbefore : ∀ j, j < i → flag j = false) (hat : flag i = true)
    (hnt : ∀ it ∈ items.take i, nonTerminalItem it) :
    (stream_openrouter_background flag items).status = TStatus.cancelled ∧
    (stream_openrouter_background flag items).completedAt = true ∧
    (stream_openrouter_background flag items).chunks =
      evsOf (items.take i) ∧
    (stream_openrouter_background flag items).result = none := by
  have := bgRun_cancel flag items i 0
    ⟨{ newTask with status := TStatus.in_progress, startedAt := true },
     0, ""⟩ hlt (by simpa using hbefore) (by simpa using hat) hnt
  rw [stream_openrouter_background]
  simpa [newTask] using this

/-- Witness for `c8_cooperative_cancellation`: the flag set after the
first of two text events cancels the task with that one chunk retained. -/
theorem c8_cooperative_cancellation_witness :
    (stream_openrouter_background (fun j => j ≥ 1)
        [BgItem.ev ⟨some "a", false, none⟩, BgItem.ev ⟨some "b", false,
          none⟩]).status = TStatus.cancelled ∧
    (stream_openrouter_background (fun j => j ≥ 1)
        [BgItem.ev ⟨some "a", false, none⟩, BgItem.ev ⟨some "b", false,
          none⟩]).completedAt = true ∧
    (stream_openrouter_background (fun j => j ≥ 1)
        [BgItem.ev ⟨some "a", false, none⟩, BgItem.ev ⟨some "b", false,
          none⟩]).chunks = [⟨some "a", false, none⟩] ∧
    (stream_openrouter_background (fun j => j ≥ 1)
        [BgItem.ev ⟨some "a", false, none⟩, BgItem.ev ⟨some "b", false,
          none⟩]).result = none := by
  have h := c8_cooperative_cancellation (fun j => decide (j ≥ 1))
    [BgItem.ev ⟨some "a", false, none⟩, BgItem.ev ⟨some "b", false, none⟩]
    1 (by decide) (by decide) (by decide)
    (by
      intro it hit
      simp at hit
      rw [hit]
      exact ⟨rfl, rfl⟩)
  exact h

/-! ## C9: progress heuristic -/

theorem progressUpdate_le_99 (k : Nat) : progressUpdate k ≤ 99 := by
  unfold progressUpdate
  split
  · exact le_trans (Nat.min_le_right _ _) (by omega)
  · exact Nat.min_le_right _ _

theorem progressUpdate_mono (k : Nat) :
    progressUpdate k ≤ progressUpdate (k + 1) := by
  unfold progressUpdate
  by_cases h1 : k < 50
  · by_cases h2 : k + 1 < 50
    · simp only [h1, h2, if_true]
      exact min_le_min (by omega) le_rfl
    · have hk : k = 49 := by omega
      subst hk
      decide
  · have h2 : ¬(k + 1 < 50) := by omega
    simp only [h1, h2, if_false]
    refine min_le_min ?_ le_rfl
    have := Nat.div_le_div_right (c := 10)
      (show k - 50 ≤ k + 1 - 50 by omega)
    omega

theorem bgRun_progress_iff (flag : Nat → Bool) :
    ∀ (items : List BgItem) (i : Nat) (w : BgWork),
      w.task.status = TStatus.in_progress → w.task.progress ≤ 99 →
      ((bgRun flag items i w).progress = 100 ↔
        (bgRun flag items i w).status = TStatus.completed)
  | [], i, w, _, _ => by simp [bgRun]
  | it :: rest, i, w, hst, hpr => by
    simp only [bgRun]
    cases hf : flag i with
    | true =>
      simp only [if_true]
      constructor
      · intro h
        simp at h
        omega
      · intro h
        simp at h
    | false =>
      simp only [Bool.false_eq_true, if_false]
      cases it with
      | notData => exact bgRun_progress_iff flag rest (i + 1) w hst hpr
      | badJson => exact bgRun_progress_iff flag rest (i + 1) w hst hpr
      | ev e =>
        cases hend : e.isEnd with
        | true => simp [hend]
        | false =>
          cases herr : e.errMsg with
          | some m =>
            simp only [hend, herr, Bool.false_eq_true, if_false]
            constructor
            · intro h
              simp at h
              have := progressUpdate_le_99 (w.chunkCount + 1)
              omega
            · intro h
              simp at h
          | none =>
            simp only [hend, herr, Bool.false_eq_true, if_false]
            exact bgRun_progress_iff flag rest (i + 1)
              ⟨{ w.task with
                   chunks := w.task.chunks ++ [e],
                   progress := progressUpdate (w.chunkCount + 1) },
               w.chunkCount + 1, w.totalContent ++ e.chunkText.getD ""⟩
              hst (progressUpdate_le_99 _)

/-! ## Agentic loop event lemmas -/

theorem countEos_append (xs ys : List AEv) :
    countEos (xs ++ ys) = countEos xs + countEos ys := by
  induction xs with
  | nil => simp [countEos]
  | cons x xs ih =>
    cases x
    all_goals simp [countEos, ih]
    all_goals omega

theorem countEos_map_reasoning (xs : List String) :
    countEos (xs.map AEv.reasoning) = 0 := by
  induction xs with
  | nil => rfl
  | cons x xs ih => simpa [countEos] using ih

theorem countEos_map_chunk (xs : List String) :
    countEos (xs.map AEv.chunk) = 0 := by
  induction xs with
  | nil => rfl
  | cons x xs ih => simpa [countEos] using ih

theorem countEos_reasoning_ite (c : Prop) [Decidable c] (s : String) :
    countEos (if c then [AEv.reasoning s] else []) = 0 := by
  split <;> rfl

theorem chunkTexts_append (xs ys : List AEv) :
    chunkTexts (xs ++ ys) = chunkTexts xs ++ chunkTexts ys := by
  induction xs with
  | nil => rfl
  | cons x xs ih => cases x <;> simp [chunkTexts, ih]

theorem chunkTexts_map_reasoning (xs : List String) :
    chunkTexts (xs.map AEv.reasoning) = [] := by
  induction xs with
  | nil => rfl
  | cons x xs ih => simpa [chunkTexts] using ih

theorem chunkTexts_map_chunk (xs : List String) :
    chunkTexts (xs.map AEv.chunk) = xs := by
  induction xs with
  | nil => rfl
  | cons x xs ih => simp [chunkTexts, ih]

theorem chunkTexts_reasoning_ite (c : Prop) [Decidable c] (s : String) :
    chunkTexts (if c then [AEv.reasoning s] else []) = [] := by
  split <;> rfl

theorem afterTools_events {V : Type} (query : String) (st : ALoopSt V)
    (iteration : Nat) (adaptations1 : List String) (msgs3 : List (Msg V))
    (roundNames : List String) (steps3 : List AStep) :
    countEos (afterTools query st iteration adaptations1 msgs3 roundNames
      steps3).1 = 0 ∧
    chunkTexts (afterTools query st iteration adaptations1 msgs3 roundNames
      steps3).1 = [] := by
  simp only [afterTools]
  constructor
  · simp [countEos_append, countEos_reasoning_ite, countEos]
  · simp [chunkTexts_append, chunkTexts_reasoning_ite, chunkTexts]

theorem afterTools_iteration {V : Type} (query : String) (st : ALoopSt V)
    (iteration : Nat) (adaptations1 : List String) (msgs3 : List (Msg V))
    (roundNames : List String) (steps3 : List AStep) :
    (afterTools query st iteration adaptations1 msgs3 roundNames
      steps3).2.iteration = iteration := rfl

theorem countEos_naturalEvents {V : Type} (query : String) (st : ALoopSt V)
    (iteration : Nat) (adaptations1 : List String)
    (content : Option String) :
    countEos (naturalEvents query st iteration adaptations1 content) = 0 := by
  cases content with
  | none => rfl
  | some fc =>
    simp only [naturalEvents]
    split
    · exact countEos_map_chunk _
    · rfl

/-! ## Final-answer chunking round-trip -/

theorem splitOnAux_flatten (pat : List Char) (hne : pat ≠ []) :
    ∀ (fuel : Nat) (hay : List Char), hay.length < fuel →
      ((splitOnAux pat fuel hay).map (fun p => p ++ pat)).flatten =
        hay ++ pat
  | 0, hay, hlt => absurd hlt (by omega)
  | fuel + 1, hay, hlt => by
    rw [splitOnAux]
    cases hfind : findSub pat hay with
    | none => simp
    | some i =>
      have hocc := findSub_some_occursAt hfind
      have hbound := occursAt_ne_nil_bound hocc hne
      have hdec := occursAt_decomp hocc
      have hlen : (hay.drop (i + pat.length)).length < fuel := by
        have hp : 0 < pat.length := List.length_pos.mpr hne
        simp only [List.length_drop]
        omega
      simp only [List.map_cons, List.flatten_cons,
        splitOnAux_flatten pat hne fuel (hay.drop (i + pat.length)) hlen]
      conv_rhs => rw [hdec]
      simp [List.append_assoc]

theorem joinAll_data (xs : List String) :
    (joinAll xs).data = (xs.map String.data).flatten := by
  induction xs with
  | nil => rfl
  | cons x xs ih => simp [joinAll, String.data_append, ih]

theorem splitOnSub_rejoin (s : String) :
    joinAll ((splitOnSub ". " s).map (fun p => p ++ ". ")) = s ++ ". " := by
  apply String.ext
  rw [joinAll_data, String.data_append]
  have h1 : ((splitOnSub ". " s).map (fun p => p ++ ". ")).map String.data =
      (splitOnAux ". ".data (s.data.length + 1) s.data).map
        (fun p => p ++ ". ".data) := by
    simp [splitOnSub, Function.comp, String.data_append]
  rw [h1, splitOnAux_flatten ". ".data (by decide) (s.data.length + 1)
    s.data (by omega)]

theorem chunkFinalAux_joinAll :
    ∀ (pieces : List String) (acc : String),
      joinAll (chunkFinalAux pieces acc) =
        acc ++ joinAll (pieces.map (fun p => p ++ ". "))
  | [], acc => by
    rw [chunkFinalAux]
    split
    · simp [joinAll, String.append_empty]
    · rename_i h
      simp at h
      simp [h, joinAll, String.append_empty, String.empty_append]
  | s :: rest, acc => by
    rw [chunkFinalAux]
    split
    · simp only [joinAll, chunkFinalAux_joinAll rest ""]
      rw [String.empty_append]
      simp [String.append_assoc]
    · rw [chunkFinalAux_joinAll rest (acc ++ s ++ ". ")]
      simp [joinAll, String.append_assoc]

theorem chunkFinal_joinAll (s : String) :
    joinAll (chunkFinal s) = s ++ ". " := by
  rw [chunkFinal, chunkFinalAux_joinAll, String.empty_append,
    splitOnSub_rejoin]

theorem naturalEvents_join {V : Type} (query : String) (st : ALoopSt V)
    (iteration : Nat) (adaptations1 : List String) (fc : String)
    (hfc : fc ≠ "") :
    joinAll (chunkTexts (naturalEvents query st iteration adaptations1
      (some fc))) =
      (if st.totalTools.isEmpty then fc
       else fc ++ workflowSummary query iteration st.totalTools st.steps
         adaptations1) ++ ". " := by
  simp only [naturalEvents, hfc, if_true]
  cases hemp : st.totalTools.isEmpty <;>
    simp [hemp, hfc, chunkTexts_map_chunk, chunkFinal_joinAll]

/-- Invariant of the fuelled agentic loop: the iteration counter grows by
at most the fuel, natural termination yields exactly one end-of-stream
event and (for non-empty content) chunk events re-joining to the final
content with the workflow summary appended exactly when tools were used,
and exhaustion yields exactly one end-of-stream event together with the
fallback-message chunk. -/
theorem agenticLoop_spec {Args V : Type} (argParse : String → Option Args)
    (toolImpl : String → Args → Except String V)
    (provider : List (Msg V) → Except String ProvResp) (query : String) :
    ∀ (fuel : Nat) (st : ALoopSt V) (r : ALoopRes V),
      agenticLoop argParse toolImpl provider query fuel st = r →
      r.st.iteration ≤ st.iteration + fuel ∧
      (∀ c, r.out = ACore.natural c →
        countEos r.events = 1 ∧
        ∀ fc, c = some fc → fc ≠ "" →
          joinAll (chunkTexts r.events) =
            (if r.st.totalTools.isEmpty then fc
             else fc ++ workflowSummary query r.st.iteration
               r.st.totalTools r.st.steps r.st.adaptations) ++ ". ") ∧
      (r.out = ACore.exhausted →
        countEos r.events = 1 ∧
        AEv.chunk (fallbackMessage r.st.steps.length r.st.totalTools
          r.st.currentStep) ∈ r.events)
  | 0, st, r, heq => by
    subst heq
    refine ⟨Nat.le_add_right _ _, ?_, ?_⟩
    · intro c hc
      simp [agenticLoop] at hc
    · intro _
      exact ⟨rfl, List.mem_cons_self _ _⟩
  | fuel + 1, st, r, heq => by
    simp only [agenticLoop] at heq
    cases hp : provider (loopMsgs1 st) with
    | error e =>
      simp only [hp] at heq
      subst heq
      refine ⟨Nat.add_le_add_left (Nat.le_add_left 1 fuel) st.iteration,
        ?_, ?_⟩
      · intro c hc
        simp at hc
      · intro hc
        simp at hc
    | ok resp =>
      cases htc : resp.toolCalls with
      | none =>
        simp only [hp, htc] at heq
        subst heq
        refine ⟨Nat.add_le_add_left (Nat.le_add_left 1 fuel) st.iteration,
          ?_, ?_⟩
        · intro c hc
          have hcc : resp.content = c := by injection hc
          subst hcc
          constructor
          · simp only [countEos_append, countEos_map_reasoning,
              countEos_naturalEvents, countEos]
          · intro fc hfc hne
            simp only [chunkTexts_append, chunkTexts_map_reasoning,
              chunkTexts, List.nil_append, List.append_nil, hfc]
            exact naturalEvents_join query st (st.iteration + 1)
              (loopAdaptations1 st) fc hne
        · intro hc
          simp at hc
      | some tcs =>
        simp only [hp, htc] at heq
        cases htp : toolPhase argParse toolImpl (st.iteration + 1) tcs
            (loopMsgs1 st ++ [Msg.assistant resp.content (some tcs)]) []
            st.steps with
        | error e =>
          simp only [htp] at heq
          subst heq
          refine ⟨Nat.add_le_add_left (Nat.le_add_left 1 fuel) st.iteration,
            ?_, ?_⟩
          · intro c hc
            simp at hc
          · intro hc
            simp at hc
        | ok trip =>
          obtain ⟨msgs3, roundNames, steps3⟩ := trip
          simp only [htp] at heq
          subst heq
          have hAE := afterTools_events query st (st.iteration + 1)
            (loopAdaptations1 st) msgs3 roundNames steps3
          have hAI := afterTools_iteration query st (st.iteration + 1)
            (loopAdaptations1 st) msgs3 roundNames steps3
          have ih := agenticLoop_spec argParse toolImpl provider query fuel
            (afterTools query st (st.iteration + 1) (loopAdaptations1 st)
              msgs3 roundNames steps3).2 _ rfl
          obtain ⟨ih1, ih2, ih3⟩ := ih
          refine ⟨le_trans ih1 (by rw [hAI]; omega), ?_, ?_⟩
          · intro c hc
            obtain ⟨hcnt, hjoin⟩ := ih2 c hc
            constructor
            · simp only [countEos_append, countEos_map_reasoning, hAE.1,
                hcnt, Nat.zero_add]
            · intro fc hfc hne
              have hj := hjoin fc hfc hne
              simp only [chunkTexts_append, chunkTexts_map_reasoning, hAE.2,
                List.nil_append, List.append_nil]
              exact hj
          · intro hc
            obtain ⟨hcnt, hmem⟩ := ih3 hc
            constructor
            · simp only [countEos_append, countEos_map_reasoning, hAE.1,
                hcnt, Nat.zero_add]
            · simp only [List.mem_append]
              exact Or.inr hmem

/-- C3 (corrected).  For every query and every provider behaviour, the
agentic loop performs at most `maxIterations = 5` rounds, and each exit
path yields user-visible output: natural termination is closed by exactly
one end-of-stream event, with the chunk events re-joining to the final
content — the workflow summary is appended exactly when tools were used
(not unconditionally, as the claim states); exhaustion is closed by
exactly one end-of-stream event and contains the fallback-message chunk;
and a provider error makes the error event the last event of the run. -/
theorem c3_loop_output {Args V : Type} (argParse : String → Option Args)
    (toolImpl : String → Args → Except String V)
    (provider : List (Msg V) → Except String ProvResp) (query : String)
    (r : AgenticResult)
    (hr : run_agentic_loop argParse toolImpl provider query true = r) :
    r.iterations ≤ maxIterations ∧
    (r.outcome = AOutcome.natural →
      countEos r.events = 1 ∧
      ∀ fc, r.finalContent = some fc → fc ≠ "" →
        joinAll (chunkTexts r.events) =
          (if r.toolsUsed.isEmpty then fc
           else fc ++ workflowSummary query r.iterations r.toolsUsed
             r.steps r.adaptations) ++ ". ") ∧
    (r.outcome = AOutcome.exhausted →
      countEos r.events = 1 ∧
      AEv.chunk (fallbackMessage r.steps.length r.toolsUsed
        r.currentStep) ∈ r.events) ∧
    (∀ e, r.outcome = AOutcome.errored e →
      r.events.getLast? = some (AEv.errorEv (agenticErrMsg e))) := by
  subst hr
  obtain ⟨hl1, hl2, hl3⟩ := agenticLoop_spec argParse toolImpl provider
    query maxIterations (initALoopSt V query) _ rfl
  simp only [run_agentic_loop, Bool.not_true]
  cases ho : (agenticLoop argParse toolImpl provider query maxIterations
      (initALoopSt V query)).out with
  | natural c =>
    obtain ⟨hcnt, hjoin⟩ := hl2 c ho
    refine ⟨hl1, ?_, ?_, ?_⟩
    · intro _
      constructor
      · simp only [countEos, hcnt]
      · intro fc hfc hne
        have hj := hjoin fc hfc hne
        simp only [chunkTexts]
        exact hj
    · intro hc
      simp at hc
    · intro e hc
      simp at hc
  | exhausted =>
    obtain ⟨hcnt, hmem⟩ := hl3 ho
    refine ⟨hl1, ?_, ?_, ?_⟩
    · intro hc
      simp at hc
    · intro _
      exact ⟨by simp only [countEos, hcnt], List.mem_cons_of_mem _ hmem⟩
    · intro e hc
      simp at hc
  | errored e =>
    refine ⟨hl1, ?_, ?_, ?_⟩
    · intro hc
      simp at hc
    · intro hc
      simp at hc
    · intro e2 hc
      have he : e = e2 := by
        have hout : AOutcome.errored e = AOutcome.errored e2 := hc
        injection hout
      subst he
      exact List.getLast?_concat _

/-- C3 counterexample to the unconditional workflow summary: a provider
that answers "Hi" without calling any tool terminates naturally, but the
final answer is chunked without any appended workflow summary — no chunk
event contains the summary banner. -/
theorem c3_no_summary_counterexample :
    (run_agentic_loop c3ArgParse c3ToolImpl c3Provider "q" true).outcome =
      AOutcome.natural ∧
    (run_agentic_loop c3ArgParse c3ToolImpl c3Provider "q" true).events =
      [AEv.reasoning "🧠 Analyzing request and planning optimal approach...",
       AEv.reasoning "🚀 Starting with information gathering",
       AEv.chunk "Hi. ", AEv.eos] ∧
    ∀ s, AEv.chunk s ∈
        (run_agentic_loop c3ArgParse c3ToolImpl c3Provider "q" true).events →
      strContains s "Workflow Summary" = false := by
  have hev : (run_agentic_loop c3ArgParse c3ToolImpl c3Provider "q"
      true).events =
    [AEv.reasoning "🧠 Analyzing request and planning optimal approach...",
     AEv.reasoning "🚀 Starting with information gathering",
     AEv.chunk "Hi. ", AEv.eos] := by decide
  refine ⟨rfl, hev, ?_⟩
  intro s hs
  rw [hev] at hs
  simp only [List.mem_cons, List.not_mem_nil, or_false] at hs
  rcases hs with h | h | h | h
  · exact absurd h (by simp)
  · exact absurd h (by simp)
  · cases h
    rfl
  · exact absurd h (by simp)

/-- C3 witness: the loop-output theorem instantiated at the no-tool
fixture run. -/
theorem c3_loop_output_witness :
    (run_agentic_loop c3ArgParse c3ToolImpl c3Provider "q"
      true).iterations ≤ maxIterations ∧
    ((run_agentic_loop c3ArgParse c3ToolImpl c3Provider "q" true).outcome =
        AOutcome.natural →
      countEos (run_agentic_loop c3ArgParse c3ToolImpl c3Provider "q"
        true).events = 1 ∧
      ∀ fc, (run_agentic_loop c3ArgParse c3ToolImpl c3Provider "q"
          true).finalContent = some fc → fc ≠ "" →
        joinAll (chunkTexts (run_agentic_loop c3ArgParse c3ToolImpl
            c3Provider "q" true).events) =
          (if (run_agentic_loop c3ArgParse c3ToolImpl c3Provider "q"
              true).toolsUsed.isEmpty then fc
           else fc ++ workflowSummary "q"
             (run_agentic_loop c3ArgParse c3ToolImpl c3Provider "q"
               true).iterations
             (run_agentic_loop c3ArgParse c3ToolImpl c3Provider "q"
               true).toolsUsed
             (run_agentic_loop c3ArgParse c3ToolImpl c3Provider "q"
               true).steps
             (run_agentic_loop c3ArgParse c3ToolImpl c3Provider "q"
               true).adaptations) ++ ". ") ∧
    ((run_agentic_loop c3ArgParse c3ToolImpl c3Provider "q" true).outcome =
        AOutcome.exhausted →
      countEos (run_agentic_loop c3ArgParse c3ToolImpl c3Provider "q"
        true).events = 1 ∧
      AEv.chunk (fallbackMessage (run_agentic_loop c3ArgParse c3ToolImpl
          c3Provider "q" true).steps.length
        (run_agentic_loop c3ArgParse c3ToolImpl c3Provider "q"
          true).toolsUsed
        (run_agentic_loop c3ArgParse c3ToolImpl c3Provider "q"
          true).currentStep) ∈
        (run_agentic_loop c3ArgParse c3ToolImpl c3Provider "q"
          true).events) ∧
    (∀ e, (run_agentic_loop c3ArgParse c3ToolImpl c3Provider "q"
        true).outcome = AOutcome.errored e →
      (run_agentic_loop c3ArgParse c3ToolImpl c3Provider "q"
        true).events.getLast? =
        some (AEv.errorEv (agenticErrMsg e))) :=
  c3_loop_output c3ArgParse c3ToolImpl c3Provider "q"
    (run_agentic_loop c3ArgParse c3ToolImpl c3Provider "q" true) rfl

/-- C9 (confirmed).  The worker progress heuristic is monotonically
non-decreasing in the number of received chunks and never exceeds 99, and
a background run reaches progress 100 exactly when the task ends
`completed` (failure and cancellation leave it at most 99). -/
theorem c9_progress_heuristic :
    (∀ k, progressUpdate k ≤ progressUpdate (k + 1)) ∧
    (∀ k, progressUpdate k ≤ 99) ∧
    (∀ (flag : Nat → Bool) (items : List BgItem),
      ((stream_openrouter_background flag items).progress = 100 ↔
        (stream_openrouter_background flag items).status =
          TStatus.completed)) := by
  refine ⟨progressUpdate_mono, progressUpdate_le_99, ?_⟩
  intro flag items
  exact bgRun_progress_iff flag items 0 _ rfl (by simp [newTask])

end Comet
